import Mathlib

/-!
Verification development for the chalk trait-solver core: a shallow
embedding of the unification / relation engine of
`chalk-solve/src/infer/unify.rs`, the candidate lookup of
`chalk-integration/src/program.rs`, and the early inference table of
`chalk-rust/src/solve/infer/table.rs`, together with theorems settling
the specified properties.
-/

set_option linter.unusedVariables false

namespace Chalk

/-- Variance of a relation, from `chalk_ir::Variance`
(Invariant / Covariant / Contravariant). -/
inductive Variance
  | invariant
  | covariant
  | contravariant
  deriving DecidableEq, Repr

/-- Invert a variance (`Variance::invert`): covariant and contravariant
swap, invariant stays.  Modelled from the spec: chalk-ir is not among
the sources ("Contravariant: symmetric, swapping sides"). -/
def Variance.invert : Variance → Variance
  | .invariant => .invariant
  | .covariant => .contravariant
  | .contravariant => .covariant

/-- Combine an outer variance with a declared parameter variance
(`Variance::xform`).  Modelled from the spec: chalk-ir is not among the
sources ("For structural pairs, propagate variance per field
declaration"): invariant forces invariant, covariant keeps the declared
variance, contravariant inverts it. -/
def Variance.xform : Variance → Variance → Variance
  | .invariant, _ => .invariant
  | .covariant, v => v
  | .contravariant, v => v.invert

/-- Kind of a type inference variable, from `chalk_ir::TyKind` at this
revision: General, Integer or Float. -/
inductive TyKind
  | general
  | integer
  | float
  deriving DecidableEq, Repr

/-- Head name of an `Apply` type (`chalk_ir::TypeName`), reduced to the
constructors the engine inspects: ADTs, integer scalars, float scalars
and tuples.  `is_integer` / `is_float` test the scalar constructors. -/
inductive TypeName
  | adt (id : Nat)
  | scalarInt (id : Nat)
  | scalarFloat (id : Nat)
  | tuple (arity : Nat)
  deriving DecidableEq, Repr

/-- A lifetime (`chalk_ir::LifetimeData`): inference variable,
placeholder `(universe, index)` or bound variable `(debruijn, index)`.
The uninhabited `Phantom` variant is omitted. -/
inductive Lifetime
  | inferenceVar (v : Nat)
  | placeholder (ui : Nat) (idx : Nat)
  | boundVar (debruijn : Nat) (idx : Nat)
  deriving DecidableEq, Repr

/-- The value part of a const (`chalk_ir::ConstValue`): inference
variable, concrete value (opaque interned payload, modelled as a `Nat`),
placeholder or bound variable. -/
inductive ConstValue
  | inferenceVar (v : Nat)
  | concrete (payload : Nat)
  | placeholder (ui : Nat) (idx : Nat)
  | boundVar (debruijn : Nat) (idx : Nat)
  deriving DecidableEq, Repr

mutual

/-- A type (`chalk_ir::TyData` at this revision): `Apply`, `Placeholder`,
`InferenceVar`, `Dyn`, `Function`, `Alias` or `BoundVar`.  A `dyn` type
carries the binder kinds of its bound-bag binder (`Binders` of
quantified where clauses) and its region; a `function` type carries its
binder count, ABI, safety, variadic flag and substitution. -/
inductive Ty
  | apply (name : TypeName) (subst : Args)
  | placeholder (ui : Nat) (idx : Nat)
  | inferenceVar (v : Nat) (kind : TyKind)
  | dyn (boundsKinds : VKinds) (bounds : QWClauses) (lifetime : Lifetime)
  | function (numBinders : Nat) (abi : Nat) (safety : Bool) (variadic : Bool) (subst : Args)
  | alias (a : AliasT)
  | boundVar (debruijn : Nat) (idx : Nat)
  deriving DecidableEq

/-- An alias type (`chalk_ir::AliasTy`): associated-type projection or
opaque type, each with a substitution. -/
inductive AliasT
  | projection (assocId : Nat) (subst : Args)
  | opaq (opaqueId : Nat) (subst : Args)
  deriving DecidableEq

/-- A const (`chalk_ir::ConstData`): a declared type together with a
value. -/
inductive Cnst
  | mk (ty : Ty) (value : ConstValue)
  deriving DecidableEq

/-- A generic argument (`chalk_ir::GenericArgData`): type, lifetime or
const. -/
inductive GenericArg
  | ty (t : Ty)
  | lifetime (l : Lifetime)
  | konst (c : Cnst)
  deriving DecidableEq

/-- An ordered sequence of generic arguments (`chalk_ir::Substitution`),
as a dedicated list type to keep the grammar one mutual family. -/
inductive Args
  | nil
  | cons (head : GenericArg) (tail : Args)
  deriving DecidableEq

/-- A where clause (`chalk_ir::WhereClause`): trait implementation,
alias equality, type outlives or lifetime outlives. -/
inductive WhereClause
  | implemented (traitId : Nat) (subst : Args)
  | aliasEq (al : AliasT) (ty : Ty)
  | typeOutlives (ty : Ty) (lifetime : Lifetime)
  | lifetimeOutlives (a : Lifetime) (b : Lifetime)
  deriving DecidableEq

/-- A quantified where clause (`Binders<WhereClause>`): binder kinds
plus the clause under the binder. -/
inductive QWClause
  | mk (kinds : VKinds) (clause : WhereClause)
  deriving DecidableEq

/-- A list of quantified where clauses
(`chalk_ir::QuantifiedWhereClauses`). -/
inductive QWClauses
  | nil
  | cons (head : QWClause) (tail : QWClauses)
  deriving DecidableEq

/-- A binder variable kind (`chalk_ir::VariableKind`): type, lifetime,
or const with its declared type. -/
inductive VKind
  | ty
  | lifetime
  | konst (t : Ty)
  deriving DecidableEq

/-- A list of binder variable kinds (`chalk_ir::VariableKinds`). -/
inductive VKinds
  | nil
  | cons (head : VKind) (tail : VKinds)
  deriving DecidableEq

end

/-- The value slot of an inference variable
(`chalk_ir::InferenceValue` / spec `InferenceValue`): either unbound
with a universe, or bound to a generic argument. -/
inductive InfVal
  | unbound (ui : Nat)
  | boundTo (arg : GenericArg)
  deriving DecidableEq

/-- The inference table.  Modelled from the spec (§4.3): the chalk-solve
`InferenceTable` itself and the `ena` union-find crate it wraps are not
among the sources, only their client `unify.rs` is.  `repr` maps every
allocated variable to its current representative (kept fully
compressed, so union-find reachability is a single lookup), `vals`
holds each slot's `InfVal` (only the representative's entry is
consulted), and `maxU` is the `max_universe` counter (spec §3
invariant 5). -/
structure Table where
  repr : List Nat
  vals : List InfVal
  maxU : Nat
  deriving DecidableEq

/-- Number of variables ever allocated (spec §4.3: rollback restores
"the count of allocated values"). -/
def Table.next (t : Table) : Nat := t.repr.length

/-- Representative of a variable in the union-find. -/
def Table.reprOf (t : Table) (v : Nat) : Nat := t.repr.getD v v

/-- `probe_value`: the `InfVal` carried by the representative. -/
def Table.probe (t : Table) (v : Nat) : InfVal :=
  t.vals.getD (t.reprOf v) (.unbound 0)

/-- `unioned(a, b)`: whether two variables share a representative. -/
def Table.unioned (t : Table) (a b : Nat) : Bool :=
  t.reprOf a == t.reprOf b

/-- The bound value of a variable, if any. -/
def Table.boundVal (t : Table) (v : Nat) : Option GenericArg :=
  match t.probe v with
  | .boundTo arg => some arg
  | .unbound _ => none

/-- `new_variable(ui)`: append a fresh unbound slot in universe `ui`
(spec §4.3). -/
def Table.newVariable (t : Table) (ui : Nat) : Nat × Table :=
  (t.next, { t with repr := t.repr ++ [t.next], vals := t.vals ++ [.unbound ui] })

/-- `unify_var_value(v, val)`: overwrite the representative's slot
(spec §4.3; failure-free at this layer). -/
def Table.unifyVarValue (t : Table) (v : Nat) (val : InfVal) : Table :=
  { t with vals := t.vals.set (t.reprOf v) val }

/-- `unify_var_var(a, b)`: merge the two classes.  Modelled from the
spec (§3 invariant 2): when both roots are unbound the surviving value
is unbound at the minimum of the two universes; a bound value, if
present, survives.  The smaller root index is kept as representative. -/
def Table.unifyVarVar (t : Table) (a b : Nat) : Table :=
  let ra := t.reprOf a
  let rb := t.reprOf b
  if ra = rb then t
  else
    let rn := min ra rb
    let newVal : InfVal :=
      match t.probe a, t.probe b with
      | .unbound u1, .unbound u2 => .unbound (min u1 u2)
      | .boundTo x, _ => .boundTo x
      | _, .boundTo x => .boundTo x
    { t with
      repr := t.repr.map (fun r => if r = ra ∨ r = rb then rn else r),
      vals := t.vals.set rn newVal }

/-- `new_universe()`: bump and return the table's max universe
(spec §4.2). -/
def Table.newUniverse (t : Table) : Nat × Table :=
  (t.maxU + 1, { t with maxU := t.maxU + 1 })

/-- `universe_of_unbound_var(v)`: the universe of an unbound variable;
`none` models the panic on a bound variable. -/
def Table.universeOfUnboundVar (t : Table) (v : Nat) : Option Nat :=
  match t.probe v with
  | .unbound ui => some ui
  | .boundTo _ => none

/-- Observable preservation between two tables: every representative
and every bound value unchanged (promotions and fresh allocations
satisfy this). -/
def Table.Pres (t t' : Table) : Prop :=
  (∀ w, t'.reprOf w = t.reprOf w) ∧ (∀ w, t'.boundVal w = t.boundVal w)

/-- `UniverseIndex::can_see` (spec §4.2): `u` can see `v` iff `u ≥ v`. -/
def canSee (u v : Nat) : Bool := v ≤ u

/-- A deferred obligation pushed by the Unifier, wrapped with the
environment it was created in (`InEnvironment<Goal>`): `AliasEq`,
`SubtypeGoal` or `LifetimeOutlives`. -/
inductive Goal
  | aliasEq (env : Nat) (al : AliasT) (t : Ty)
  | subtype (env : Nat) (a b : Ty)
  | lifetimeOutlives (env : Nat) (a b : Lifetime)
  deriving DecidableEq

/-- Outcome of a fallible engine step.  `noSolution` is
`chalk_ir::NoSolution`; `invariantViolation` models a Rust panic /
`unreachable!` (spec §7 "Invariant violation"); `outOfFuel` is the
embedding's recursion bound, never an outcome of the Rust code. -/
inductive Err
  | noSolution
  | invariantViolation
  | outOfFuel
  deriving DecidableEq

/-- The mutable state of a `Unifier`: its inference table and the
accumulated `goals`. -/
structure UState where
  table : Table
  goals : List Goal
  deriving DecidableEq

/-- The unification database consulted for declared parameter variances
(`chalk_ir::UnificationDatabase`).  Modelled from the spec ("zip
substitutions under per-parameter declared variances from the
Program"). -/
structure UDb where
  variancesOf : TypeName → List Variance

instance {ε α : Type} [DecidableEq ε] [DecidableEq α] : DecidableEq (Except ε α) := fun x y =>
  match x, y with
  | .ok a, .ok b =>
      if h : a = b then .isTrue (by rw [h])
      else .isFalse (by intro hh; cases hh; exact h rfl)
  | .error a, .error b =>
      if h : a = b then .isTrue (by rw [h])
      else .isFalse (by intro hh; cases hh; exact h rfl)
  | .ok _, .error _ => .isFalse (by intro hh; cases hh)
  | .error _, .ok _ => .isFalse (by intro hh; cases hh)

/-- State-and-error monad of the engine: a Unifier step transforms a
`UState` and either yields a value or an `Err`.  The state survives an
error, as Rust's `&mut self` does — the outer `relate` wrapper alone
rolls back. -/
def UM (α : Type) : Type := UState → Except Err α × UState

instance : Monad UM where
  pure a := fun s => (.ok a, s)
  bind m f := fun s =>
    match m s with
    | (.ok a, s') => f a s'
    | (.error e, s') => (.error e, s')

/-- Fail with an error, keeping the state. -/
def UM.throw {α : Type} (e : Err) : UM α := fun s => (.error e, s)

/-- Read the current state. -/
def UM.get : UM UState := fun s => (.ok s, s)

/-- Allocate a fresh inference variable in universe `ui`. -/
def UM.newVariable (ui : Nat) : UM Nat := fun s =>
  let (v, t) := s.table.newVariable ui
  (.ok v, { s with table := t })

/-- Run `unify_var_value`. -/
def UM.unifyVarValue (v : Nat) (val : InfVal) : UM Unit := fun s =>
  (.ok (), { s with table := s.table.unifyVarValue v val })

/-- Run `unify_var_var`. -/
def UM.unifyVarVar (a b : Nat) : UM Unit := fun s =>
  (.ok (), { s with table := s.table.unifyVarVar a b })

/-- Push a goal onto the Unifier's `goals` list. -/
def UM.pushGoal (g : Goal) : UM Unit := fun s =>
  (.ok (), { s with goals := s.goals ++ [g] })

/-- Bump the table's universe counter and return the fresh universe. -/
def UM.newUniverse : UM Nat := fun s =>
  let (u, t) := s.table.newUniverse
  (.ok u, { s with table := t })

/-- Run a computation, turning a `NoSolution` failure into `none` while
keeping its state effects; other failures propagate.  This models the
Rust closure in the `Dyn` arm of `relate_var_ty` that stores the first
`NoSolution` in a local and keeps mapping. -/
def UM.captureNoSolution {α : Type} (m : UM α) : UM (Option α) := fun s =>
  match m s with
  | (.ok a, s') => (.ok (some a), s')
  | (.error .noSolution, s') => (.ok none, s')
  | (.error e, s') => (.error e, s')

/-- `InferenceTable::normalize_ty_shallow`: if the leaf is an inference
variable bound in the table, return its stored type, else `none`.
Modelled from the spec (§4.3 `normalize_shallow`; the chalk-solve
table file is not among the sources, the chalk-rust revision of the
same routine is, at `table.rs:75`).  A stored non-type value for a type
variable (an interner-contract violation) is treated as no
normalization. -/
def normalizeTyShallow (t : Table) : Ty → Option Ty
  | .inferenceVar v _ =>
      match t.probe v with
      | .boundTo (.ty u) => some u
      | _ => none
  | _ => none

/-- `normalize_lifetime_shallow`, as `normalizeTyShallow` but for
lifetimes. -/
def normalizeLifetimeShallow (t : Table) : Lifetime → Option Lifetime
  | .inferenceVar v =>
      match t.probe v with
      | .boundTo (.lifetime l) => some l
      | _ => none
  | _ => none

/-- `normalize_const_shallow`, as `normalizeTyShallow` but for consts. -/
def normalizeConstShallow (t : Table) : Cnst → Option Cnst
  | .mk _ (.inferenceVar v) =>
      match t.probe v with
      | .boundTo (.konst c) => some c
      | _ => none
  | _ => none

/-- `Ty::is_integer`: an `Apply` of an integer scalar. -/
def Ty.isInteger : Ty → Bool
  | .apply (.scalarInt _) _ => true
  | _ => false

/-- `Ty::is_float`: an `Apply` of a float scalar. -/
def Ty.isFloat : Ty → Bool
  | .apply (.scalarFloat _) _ => true
  | _ => false

/-- Length of an `Args` sequence. -/
def Args.len : Args → Nat
  | .nil => 0
  | .cons _ t => t.len + 1

/-- Index lookup in an `Args` sequence. -/
def Args.get? : Args → Nat → Option GenericArg
  | .nil, _ => none
  | .cons h _, 0 => some h
  | .cons _ t, n + 1 => t.get? n

/-- The declared type of a const. -/
def Cnst.tyOf : Cnst → Ty
  | .mk t _ => t

mutual

/-- Substitute the arguments `ar` for the bound variables of the binder
at DeBruijn depth `depth` in a type, decrementing deeper free indices.
Modelled from the spec: the chalk-ir `Subst`/fold machinery is not
among the sources; binder instantiation replaces bound variables by the
supplied arguments ("Binders<T> is a pair (variable_kinds, body) where
body refers to bound variables by DeBruijn index").  The substituted
values are closed, so they need no shifting.  An index with no matching
argument or a kind-mismatched argument is left in place. -/
def substTy (ar : Args) (depth : Nat) : Ty → Ty
  | .apply n s => .apply n (substArgs ar depth s)
  | .placeholder u i => .placeholder u i
  | .inferenceVar v k => .inferenceVar v k
  | .dyn ks bs lt => .dyn ks (substQWClauses ar (depth + 1) bs) (substLifetime ar depth lt)
  | .function nb abi sf vd s => .function nb abi sf vd (substArgs ar (depth + 1) s)
  | .alias a => .alias (substAlias ar depth a)
  | .boundVar d i =>
      if d = depth then
        match ar.get? i with
        | some (.ty t) => t
        | _ => .boundVar d i
      else if depth < d then .boundVar (d - 1) i
      else .boundVar d i

/-- Substitution on aliases, see `substTy`. -/
def substAlias (ar : Args) (depth : Nat) : AliasT → AliasT
  | .projection a s => .projection a (substArgs ar depth s)
  | .opaq o s => .opaq o (substArgs ar depth s)

/-- Substitution on lifetimes, see `substTy`. -/
def substLifetime (ar : Args) (depth : Nat) : Lifetime → Lifetime
  | .inferenceVar v => .inferenceVar v
  | .placeholder u i => .placeholder u i
  | .boundVar d i =>
      if d = depth then
        match ar.get? i with
        | some (.lifetime l) => l
        | _ => .boundVar d i
      else if depth < d then .boundVar (d - 1) i
      else .boundVar d i

/-- Substitution on consts, see `substTy`.  A bound-variable value is
replaced by the whole supplied const. -/
def substCnst (ar : Args) (depth : Nat) : Cnst → Cnst
  | .mk t (.boundVar d i) =>
      if d = depth then
        match ar.get? i with
        | some (.konst c) => c
        | _ => .mk (substTy ar depth t) (.boundVar d i)
      else if depth < d then .mk (substTy ar depth t) (.boundVar (d - 1) i)
      else .mk (substTy ar depth t) (.boundVar d i)
  | .mk t v => .mk (substTy ar depth t) v

/-- Substitution on generic arguments, see `substTy`. -/
def substGenericArg (ar : Args) (depth : Nat) : GenericArg → GenericArg
  | .ty t => .ty (substTy ar depth t)
  | .lifetime l => .lifetime (substLifetime ar depth l)
  | .konst c => .konst (substCnst ar depth c)

/-- Substitution on argument sequences, see `substTy`. -/
def substArgs (ar : Args) (depth : Nat) : Args → Args
  | .nil => .nil
  | .cons h t => .cons (substGenericArg ar depth h) (substArgs ar depth t)

/-- Substitution on where clauses, see `substTy`. -/
def substWhereClause (ar : Args) (depth : Nat) : WhereClause → WhereClause
  | .implemented tid s => .implemented tid (substArgs ar depth s)
  | .aliasEq al t => .aliasEq (substAlias ar depth al) (substTy ar depth t)
  | .typeOutlives t l => .typeOutlives (substTy ar depth t) (substLifetime ar depth l)
  | .lifetimeOutlives a b => .lifetimeOutlives (substLifetime ar depth a) (substLifetime ar depth b)

/-- Substitution on quantified where clauses, see `substTy`. -/
def substQWClause (ar : Args) (depth : Nat) : QWClause → QWClause
  | .mk kinds c => .mk kinds (substWhereClause ar (depth + 1) c)

/-- Substitution on lists of quantified where clauses, see `substTy`. -/
def substQWClauses (ar : Args) (depth : Nat) : QWClauses → QWClauses
  | .nil => .nil
  | .cons h t => .cons (substQWClause ar depth h) (substQWClauses ar depth t)

end

/-- The arguments of a universal binder instantiation: placeholder
number `i` of universe `u'` for the i-th binder variable.  Modelled
from the spec (§4.4: "Instantiate `a` universally (fresh placeholders
in a new universe)"); `chalk-solve/src/infer/instantiate.rs` is not
among the sources. -/
def universalArgs (u' : Nat) (i : Nat) : VKinds → Args
  | .nil => .nil
  | .cons k rest =>
      .cons
        (match k with
         | .ty => .ty (.placeholder u' i)
         | .lifetime => .lifetime (.placeholder u' i)
         | .konst cty => .konst (.mk cty (.placeholder u' i)))
        (universalArgs u' (i + 1) rest)

/-- `instantiate_binders_universally`: allocate a fresh universe and
substitute placeholders of that universe for the bound variables.
Modelled from the spec (§4.4), see `universalArgs`. -/
def instantiateUniversally (kinds : VKinds) : UM Args := do
  let u' ← UM.newUniverse
  pure (universalArgs u' 0 kinds)

/-- `instantiate_binders_existentially`: allocate a fresh inference
variable in the table's current max universe for each binder variable.
Modelled from the spec (§4.4: "instantiate `b` existentially (fresh
inference variables)" born "in the current maximum universe", §3). -/
def instantiateExistentially : VKinds → UM Args
  | .nil => pure .nil
  | .cons k rest => do
      let s ← UM.get
      let v ← UM.newVariable s.table.maxU
      let arg : GenericArg :=
        match k with
        | .ty => .ty (.inferenceVar v .general)
        | .lifetime => .lifetime (.inferenceVar v)
        | .konst cty => .konst (.mk cty (.inferenceVar v))
      let rest' ← instantiateExistentially rest
      pure (.cons arg rest')

/-- The binder kinds of a function pointer's implicit binder
(`IntoBindersAndValue for FnPointer`): `num_binders` lifetime binders.
Modelled from the spec: `chalk-solve/src/infer/instantiate.rs` is not
among the sources. -/
def fnBinderKinds : Nat → VKinds
  | 0 => .nil
  | n + 1 => .cons .lifetime (fnBinderKinds n)

/-- The interner's `const_eq` for two concrete const values of a shared
declared type.  Modelled from the spec: the interner is an external
collaborator and the spec demands only "equality of opaque values", so
opaque payloads compare by equality. -/
def constEq (ty : Ty) (e1 e2 : Nat) : Bool := e1 == e2

/-- `Unifier::unify_var_var` (unify.rs line 215): union two inference
variables in the ena table; failure-free. -/
def unifyVarVar (a b : Nat) : UM Unit := UM.unifyVarVar a b

/-- `Unifier::unify_general_var_specific_ty` (unify.rs line 232): bind
the general variable to the specific-kind variable's type. -/
def unifyGeneralVarSpecificTy (generalVar : Nat) (specificTy : Ty) : UM Unit :=
  UM.unifyVarValue generalVar (.boundTo (.ty specificTy))

/-- `Unifier::unify_var_const` (unify.rs line 813): bind the variable
to the whole const. -/
def unifyVarConst (v : Nat) (c : Cnst) : UM Unit :=
  UM.unifyVarValue v (.boundTo (.konst c))

/-- `Unifier::push_lifetime_eq_goals` (unify.rs line 827): push
`LifetimeOutlives(a, b)` under Invariant or Covariant, and
`LifetimeOutlives(b, a)` under Invariant or Contravariant. -/
def pushLifetimeEqGoals (env : Nat) (variance : Variance) (a b : Lifetime) : UM Unit := do
  if variance = .invariant ∨ variance = .covariant then
    UM.pushGoal (.lifetimeOutlives env a b)
  if variance = .invariant ∨ variance = .contravariant then
    UM.pushGoal (.lifetimeOutlives env b a)

/-- `Unifier::push_subtype_goal` (unify.rs line 846). -/
def pushSubtypeGoal (env : Nat) (a b : Ty) : UM Unit :=
  UM.pushGoal (.subtype env a b)

/-- `Unifier::unify_lifetime_var` (unify.rs line 698): read the
unbound variable's universe (panicking if it is bound); if it can see
the value's universe, bind the variable to the value, otherwise push
the outlives goals for the original pair `(a, b)`. -/
def unifyLifetimeVar (env : Nat) (variance : Variance) (a b : Lifetime)
    (var : Nat) (value : Lifetime) (valueUi : Nat) : UM Unit := do
  let s ← UM.get
  match s.table.universeOfUnboundVar var with
  | none => UM.throw .invariantViolation
  | some varUi =>
      if canSee varUi valueUi then
        UM.unifyVarValue var (.boundTo (.lifetime value))
      else
        pushLifetimeEqGoals env variance a b

/-- `Unifier::relate_lifetime_lifetime` (unify.rs line 648): shallow
normalization, then var/var union, var/placeholder through
`unify_lifetime_var`, placeholder/placeholder outlives goals when
distinct and no-op when identical; bound variables panic. -/
def relateLifetimeLifetime (env : Nat) (variance : Variance) (a0 b0 : Lifetime) : UM Unit := do
  let s ← UM.get
  let a := (normalizeLifetimeShallow s.table a0).getD a0
  let b := (normalizeLifetimeShallow s.table b0).getD b0
  match a, b with
  | .inferenceVar va, .inferenceVar vb => UM.unifyVarVar va vb
  | .inferenceVar va, .placeholder u i =>
      unifyLifetimeVar env variance a b va b u
  | .placeholder u i, .inferenceVar vb =>
      unifyLifetimeVar env variance a b vb a u
  | .placeholder u1 i1, .placeholder u2 i2 =>
      if (u1, i1) ≠ (u2, i2) then pushLifetimeEqGoals env variance a b
      else pure ()
  | .boundVar _ _, _ => UM.throw .invariantViolation
  | _, .boundVar _ _ => UM.throw .invariantViolation

section Engine

set_option maxHeartbeats 3000000

variable (db : UDb) (env : Nat)

/-- A request to the relation engine: one constructor per method of the
`Unifier` / `OccursCheck` pair, carrying its arguments.  The engine is
a single fuel-indexed function over requests so that the mutual
recursion of unify.rs becomes structural recursion on the fuel. -/
inductive Req
  | tyTy (variance : Variance) (a b : Ty)
  | varTyKind (variance : Variance) (v : Nat) (kind : TyKind) (t : Ty)
  | varTy (variance : Variance) (v : Nat) (t : Ty)
  | aliasTy (variance : Variance) (al : AliasT) (t : Ty)
  | constConst (variance : Variance) (a b : Cnst)
  | genVar (variance : Variance) (x : GenericArg) (ui : Nat)
  | genSubst (variance : Variance) (xs : Args) (ui : Nat)
  | genSubstSkip (variance : Variance) (xs : Args) (ui : Nat)
  | genDyn (variance : Variance) (cs : QWClauses) (ui : Nat)
  | zipArg (variance : Variance) (x y : GenericArg)
  | zipApply (declared : List Variance) (variance : Variance) (a b : Args)
  | zipArgsPlain (variance : Variance) (a b : Args)
  | zipAliasReq (variance : Variance) (x y : AliasT)
  | zipWC (variance : Variance) (x y : WhereClause)
  | zipQWCs (variance : Variance) (x y : QWClauses)
  | bindersArgs (variance : Variance) (ka : VKinds) (ba : Args) (kb : VKinds) (bb : Args)
  | bindersClause (variance : Variance) (ka : VKinds) (ba : WhereClause) (kb : VKinds) (bb : WhereClause)
  | bindersQWCs (variance : Variance) (ka : VKinds) (ba : QWClauses) (kb : VKinds) (bb : QWClauses)
  | fTy (v ui outer : Nat) (t : Ty)
  | fAlias (v ui outer : Nat) (a : AliasT)
  | fLifetime (v ui outer : Nat) (l : Lifetime)
  | fCnst (v ui outer : Nat) (c : Cnst)
  | fArg (v ui outer : Nat) (x : GenericArg)
  | fArgs (v ui outer : Nat) (xs : Args)
  | fWC (v ui outer : Nat) (c : WhereClause)
  | fQWCs (v ui outer : Nat) (cs : QWClauses)

/-- The result type of each engine request: the folds and
generalizations rebuild terms, the relations return unit. -/
@[reducible] def EngineRet : Req → Type
  | .genVar _ _ _ => GenericArg
  | .genSubst _ _ _ => Args
  | .genSubstSkip _ _ _ => Args
  | .genDyn _ _ _ => QWClauses × Option Err
  | .fTy _ _ _ _ => Ty
  | .fAlias _ _ _ _ => AliasT
  | .fLifetime _ _ _ _ => Lifetime
  | .fCnst _ _ _ _ => Cnst
  | .fArg _ _ _ _ => GenericArg
  | .fArgs _ _ _ _ => Args
  | .fWC _ _ _ _ => WhereClause
  | .fQWCs _ _ _ _ => QWClauses
  | _ => Unit

/-- The relation engine: one step of the `Unifier` / `OccursCheck`
dispatch per unit of fuel.  Each request's body is the translation of
the corresponding routine of unify.rs; see the per-request wrapper
definitions below for the source locations.  `fuel = 0` is the
embedding's recursion bound, never an outcome of the Rust code. -/
def engine : (fuel : Nat) → (c : Req) → UM (EngineRet c)
  | 0, _ => UM.throw .outOfFuel
  | fuel + 1, c =>
    match c with
    | .tyTy variance a0 b0 => do
        let s ← UM.get
        let a := (normalizeTyShallow s.table a0).getD a0
        let b := (normalizeTyShallow s.table b0).getD b0
        match a, b with
        | .inferenceVar v1 k1, .inferenceVar v2 k2 =>
            (match variance with
             | .invariant =>
                 if k1 = k2 then unifyVarVar v1 v2
                 else if k1 = .general then unifyGeneralVarSpecificTy v1 (.inferenceVar v2 k2)
                 else if k2 = .general then unifyGeneralVarSpecificTy v2 (.inferenceVar v1 k1)
                 else UM.throw .noSolution
             | .covariant => pushSubtypeGoal env a b
             | .contravariant => pushSubtypeGoal env b a)
        | .inferenceVar v k, .apply n s2 => engine fuel (.varTyKind variance v k (.apply n s2))
        | .inferenceVar v k, .placeholder u i => engine fuel (.varTyKind variance v k (.placeholder u i))
        | .inferenceVar v k, .dyn ks bs lt => engine fuel (.varTyKind variance v k (.dyn ks bs lt))
        | .inferenceVar v k, .function nb abi sf vd s2 =>
            engine fuel (.varTyKind variance v k (.function nb abi sf vd s2))
        | .apply n s2, .inferenceVar v k => engine fuel (.varTyKind variance v k (.apply n s2))
        | .placeholder u i, .inferenceVar v k => engine fuel (.varTyKind variance v k (.placeholder u i))
        | .dyn ks bs lt, .inferenceVar v k => engine fuel (.varTyKind variance v k (.dyn ks bs lt))
        | .function nb abi sf vd s2, .inferenceVar v k =>
            engine fuel (.varTyKind variance v k (.function nb abi sf vd s2))
        | .function nb1 abi1 sf1 vd1 s1, .function nb2 abi2 sf2 vd2 s2 =>
            if abi1 = abi2 ∧ sf1 = sf2 ∧ vd1 = vd2 then
              engine fuel (.bindersArgs variance (fnBinderKinds nb1) s1 (fnBinderKinds nb2) s2)
            else UM.throw .noSolution
        | .function _ _ _ _ _, .apply _ _ => UM.throw .noSolution
        | .function _ _ _ _ _, .dyn _ _ _ => UM.throw .noSolution
        | .function _ _ _ _ _, .placeholder _ _ => UM.throw .noSolution
        | .apply _ _, .function _ _ _ _ _ => UM.throw .noSolution
        | .placeholder _ _, .function _ _ _ _ _ => UM.throw .noSolution
        | .dyn _ _ _, .function _ _ _ _ _ => UM.throw .noSolution
        | .placeholder u1 i1, .placeholder u2 i2 =>
            if (u1, i1) = (u2, i2) then pure () else UM.throw .noSolution
        | .apply n1 s1, .apply n2 s2 =>
            if n1 = n2 then engine fuel (.zipApply (db.variancesOf n1) variance s1 s2)
            else UM.throw .noSolution
        | .apply _ _, .placeholder _ _ => UM.throw .noSolution
        | .placeholder _ _, .apply _ _ => UM.throw .noSolution
        | .placeholder _ _, .dyn _ _ _ => UM.throw .noSolution
        | .dyn _ _ _, .placeholder _ _ => UM.throw .noSolution
        | .apply _ _, .dyn _ _ _ => UM.throw .noSolution
        | .dyn _ _ _, .apply _ _ => UM.throw .noSolution
        | .dyn k1 b1 l1, .dyn k2 b2 l2 => do
            engine fuel (.bindersQWCs variance k1 b1 k2 b2)
            relateLifetimeLifetime env variance l1 l2
        | .apply n s1, .alias al => engine fuel (.aliasTy variance.invert al (.apply n s1))
        | .placeholder u i, .alias al => engine fuel (.aliasTy variance.invert al (.placeholder u i))
        | .function nb abi sf vd s1, .alias al =>
            engine fuel (.aliasTy variance.invert al (.function nb abi sf vd s1))
        | .inferenceVar v k, .alias al => engine fuel (.aliasTy variance.invert al (.inferenceVar v k))
        | .dyn ks bs lt, .alias al => engine fuel (.aliasTy variance.invert al (.dyn ks bs lt))
        | .alias al, .alias al2 => engine fuel (.aliasTy variance al (.alias al2))
        | .alias al, .apply n s2 => engine fuel (.aliasTy variance al (.apply n s2))
        | .alias al, .placeholder u i => engine fuel (.aliasTy variance al (.placeholder u i))
        | .alias al, .function nb abi sf vd s2 =>
            engine fuel (.aliasTy variance al (.function nb abi sf vd s2))
        | .alias al, .inferenceVar v k => engine fuel (.aliasTy variance al (.inferenceVar v k))
        | .alias al, .dyn ks bs lt => engine fuel (.aliasTy variance al (.dyn ks bs lt))
        | .boundVar _ _, _ => UM.throw .invariantViolation
        | _, .boundVar _ _ => UM.throw .invariantViolation
    | .varTyKind variance v kind t =>
        (match kind, t.isInteger, t.isFloat with
         | .general, _, _ => engine fuel (.varTy variance v t)
         | .integer, true, _ => engine fuel (.varTy variance v t)
         | .float, _, true => engine fuel (.varTy variance v t)
         | _, _, _ => UM.throw .noSolution)
    | .varTy variance v ty => do
        let s ← UM.get
        let ui := s.table.maxU
        let ty1 ← engine fuel (.fTy v ui 0 ty)
        let s2 ← UM.get
        let ui2 := s2.table.maxU
        let gen ←
          match ty1 with
          | .apply name subst => do
              let subst2 ← engine fuel (.genSubst variance subst ui2)
              pure (Ty.apply name subst2)
          | .dyn ks bounds _ => do
              let lv ← UM.newVariable ui2
              let (bounds2, errOpt) ← engine fuel (.genDyn variance bounds ui2)
              match errOpt with
              | some e => UM.throw e
              | none => pure (Ty.dyn ks bounds2 (.inferenceVar lv))
          | .function nb abi sf vd subst => do
              let subst2 ← engine fuel (.genSubst variance subst ui2)
              pure (Ty.function nb abi sf vd subst2)
          | .placeholder u i => pure (Ty.placeholder u i)
          | .boundVar d i => pure (Ty.boundVar d i)
          | .alias _ => UM.throw .invariantViolation
          | .inferenceVar _ _ => UM.throw .invariantViolation
        UM.unifyVarValue v (.boundTo (.ty gen))
    | .aliasTy variance al ty =>
        (match variance with
         | .invariant => UM.pushGoal (.aliasEq env al ty)
         | .covariant => do
             let v ← UM.newVariable 0
             UM.pushGoal (.aliasEq env al (.inferenceVar v .general))
             engine fuel (.tyTy .covariant (.inferenceVar v .general) ty)
         | .contravariant => do
             let v ← UM.newVariable 0
             UM.pushGoal (.aliasEq env al (.inferenceVar v .general))
             engine fuel (.tyTy .contravariant (.inferenceVar v .general) ty))
    | .constConst variance a0 b0 => do
        let s ← UM.get
        match (normalizeConstShallow s.table a0).getD a0,
              (normalizeConstShallow s.table b0).getD b0 with
        | .mk aTy aVal, .mk bTy bVal => do
            engine fuel (.tyTy variance aTy bTy)
            match aVal, bVal with
            | .inferenceVar v1, .inferenceVar v2 => UM.unifyVarVar v1 v2
            | .inferenceVar v, .concrete e2 => unifyVarConst v (.mk bTy (.concrete e2))
            | .inferenceVar v, .placeholder u2 i2 => unifyVarConst v (.mk bTy (.placeholder u2 i2))
            | .concrete e1, .inferenceVar v => unifyVarConst v (.mk aTy (.concrete e1))
            | .placeholder u1 i1, .inferenceVar v => unifyVarConst v (.mk aTy (.placeholder u1 i1))
            | .placeholder u1 i1, .placeholder u2 i2 =>
                if (u1, i1) = (u2, i2) then pure () else UM.throw .noSolution
            | .concrete e1, .concrete e2 =>
                if constEq aTy e1 e2 then pure () else UM.throw .noSolution
            | .concrete _, .placeholder _ _ => UM.throw .noSolution
            | .placeholder _ _, .concrete _ => UM.throw .noSolution
            | .boundVar _ _, _ => UM.throw .invariantViolation
            | _, .boundVar _ _ => UM.throw .invariantViolation
    | .genVar variance subVar ui => do
        let ev ← UM.newVariable ui
        match subVar with
        | .ty oldTy => do
            engine fuel (.tyTy variance oldTy (.inferenceVar ev .general))
            pure (GenericArg.ty (.inferenceVar ev .general))
        | .lifetime oldLt => do
            relateLifetimeLifetime env variance oldLt (.inferenceVar ev)
            pure (GenericArg.lifetime (.inferenceVar ev))
        | .konst oldC => do
            let newC := Cnst.mk oldC.tyOf (.inferenceVar ev)
            engine fuel (.constConst variance oldC newC)
            pure (GenericArg.konst newC)
    | .genSubst variance args ui =>
        (match args with
         | .nil => pure Args.nil
         | .cons x xs => do
             let x2 ← engine fuel (.genVar variance x ui)
             let xs2 ← engine fuel (.genSubst variance xs ui)
             pure (Args.cons x2 xs2))
    | .genSubstSkip variance args ui =>
        (match args with
         | .nil => pure Args.nil
         | .cons x xs => do
             let xs2 ← engine fuel (.genSubst variance xs ui)
             pure (Args.cons x xs2))
    | .genDyn variance clauses ui =>
        (match clauses with
         | .nil => pure (QWClauses.nil, none)
         | .cons (.mk kinds clause) rest => do
             let ce ←
               (match clause with
                | .implemented tid subst => do
                    let r ← UM.captureNoSolution (engine fuel (.genSubstSkip variance subst ui))
                    match r with
                    | some subst2 =>
                        pure (QWClause.mk kinds (.implemented tid subst2), (none : Option Err))
                    | none => pure (QWClause.mk kinds clause, some Err.noSolution)
                | .aliasEq (.projection aid subst) _ => do
                    let r ← UM.captureNoSolution (engine fuel (.genSubst variance subst ui))
                    match r with
                    | some subst2 => do
                        let tv ← UM.newVariable ui
                        pure (QWClause.mk kinds
                          (.aliasEq (.projection aid subst2) (.inferenceVar tv .general)),
                          (none : Option Err))
                    | none => pure (QWClause.mk kinds clause, some Err.noSolution)
                | .aliasEq (.opaq oid subst) _ => do
                    let r ← UM.captureNoSolution (engine fuel (.genSubst variance subst ui))
                    match r with
                    | some subst2 => do
                        let tv ← UM.newVariable ui
                        pure (QWClause.mk kinds
                          (.aliasEq (.opaq oid subst2) (.inferenceVar tv .general)),
                          (none : Option Err))
                    | none => pure (QWClause.mk kinds clause, some Err.noSolution)
                | .typeOutlives _ _ => do
                    let lv ← UM.newVariable ui
                    let tv ← UM.newVariable ui
                    pure (QWClause.mk kinds
                      (.typeOutlives (.inferenceVar tv .general) (.inferenceVar lv)),
                      (none : Option Err))
                | .lifetimeOutlives _ _ =>
                    (UM.throw .invariantViolation : UM (QWClause × Option Err)))
             let re ← engine fuel (.genDyn variance rest ui)
             pure (QWClauses.cons ce.1 re.1, ce.2 <|> re.2))
    | .zipArg variance x y =>
        (match x, y with
         | .ty t1, .ty t2 => engine fuel (.tyTy variance t1 t2)
         | .lifetime l1, .lifetime l2 => relateLifetimeLifetime env variance l1 l2
         | .konst c1, .konst c2 => engine fuel (.constConst variance c1 c2)
         | _, _ => UM.throw .invariantViolation)
    | .zipApply declared variance a b =>
        (match a, b with
         | .nil, .nil => pure ()
         | .cons x xs, .cons y ys => do
             let eff := match declared.head? with
               | some d => variance.xform d
               | none => variance
             engine fuel (.zipArg eff x y)
             engine fuel (.zipApply declared.tail variance xs ys)
         | _, _ => UM.throw .invariantViolation)
    | .zipArgsPlain variance a b =>
        (match a, b with
         | .nil, .nil => pure ()
         | .cons x xs, .cons y ys => do
             engine fuel (.zipArg variance x y)
             engine fuel (.zipArgsPlain variance xs ys)
         | _, _ => UM.throw .invariantViolation)
    | .zipAliasReq variance x y =>
        (match x, y with
         | .projection a1 s1, .projection a2 s2 =>
             if a1 = a2 then engine fuel (.zipArgsPlain variance s1 s2) else UM.throw .noSolution
         | .opaq o1 s1, .opaq o2 s2 =>
             if o1 = o2 then engine fuel (.zipArgsPlain variance s1 s2) else UM.throw .noSolution
         | _, _ => UM.throw .noSolution)
    | .zipWC variance x y =>
        (match x, y with
         | .implemented t1 s1, .implemented t2 s2 =>
             if t1 = t2 then engine fuel (.zipArgsPlain variance s1 s2) else UM.throw .noSolution
         | .aliasEq a1 ty1, .aliasEq a2 ty2 => do
             engine fuel (.zipAliasReq variance a1 a2)
             engine fuel (.tyTy variance ty1 ty2)
         | .typeOutlives ty1 l1, .typeOutlives ty2 l2 => do
             engine fuel (.tyTy variance ty1 ty2)
             relateLifetimeLifetime env variance l1 l2
         | .lifetimeOutlives la1 lb1, .lifetimeOutlives la2 lb2 => do
             relateLifetimeLifetime env variance la1 la2
             relateLifetimeLifetime env variance lb1 lb2
         | _, _ => UM.throw .noSolution)
    | .zipQWCs variance x y =>
        (match x, y with
         | .nil, .nil => pure ()
         | .cons (.mk k1 c1) xs, .cons (.mk k2 c2) ys => do
             engine fuel (.bindersClause variance k1 c1 k2 c2)
             engine fuel (.zipQWCs variance xs ys)
         | _, _ => UM.throw .noSolution)
    | .bindersArgs variance ka ba kb bb => do
        let arA ← instantiateUniversally ka
        let arB ← instantiateExistentially kb
        engine fuel (.zipArgsPlain variance (substArgs arA 0 ba) (substArgs arB 0 bb))
        let arB2 ← instantiateUniversally kb
        let arA2 ← instantiateExistentially ka
        engine fuel (.zipArgsPlain variance (substArgs arA2 0 ba) (substArgs arB2 0 bb))
    | .bindersClause variance ka ba kb bb => do
        let arA ← instantiateUniversally ka
        let arB ← instantiateExistentially kb
        engine fuel (.zipWC variance (substWhereClause arA 0 ba) (substWhereClause arB 0 bb))
        let arB2 ← instantiateUniversally kb
        let arA2 ← instantiateExistentially ka
        engine fuel (.zipWC variance (substWhereClause arA2 0 ba) (substWhereClause arB2 0 bb))
    | .bindersQWCs variance ka ba kb bb => do
        let arA ← instantiateUniversally ka
        let arB ← instantiateExistentially kb
        engine fuel (.zipQWCs variance (substQWClauses arA 0 ba) (substQWClauses arB 0 bb))
        let arB2 ← instantiateUniversally kb
        let arA2 ← instantiateExistentially ka
        engine fuel (.zipQWCs variance (substQWClauses arA2 0 ba) (substQWClauses arB2 0 bb))
    | .fTy v ui outer t =>
        (match t with
         | .apply n s => do
             let s2 ← engine fuel (.fArgs v ui outer s)
             pure (Ty.apply n s2)
         | .placeholder u i =>
             if ui < u then UM.throw .noSolution
             else pure (Ty.placeholder u i)
         | .inferenceVar w kind => do
             let s ← UM.get
             match s.table.probe w with
             | .boundTo (.ty nt) => engine fuel (.fTy v ui 0 nt)
             | .boundTo _ => UM.throw .invariantViolation
             | .unbound wu => do
                 if s.table.unioned w v then UM.throw .noSolution
                 else do
                   if ui < wu then UM.unifyVarValue w (.unbound ui)
                   pure (Ty.inferenceVar w kind)
         | .dyn ks bs lt => do
             let bs2 ← engine fuel (.fQWCs v ui (outer + 1) bs)
             let lt2 ← engine fuel (.fLifetime v ui outer lt)
             pure (Ty.dyn ks bs2 lt2)
         | .function nb abi sf vd s => do
             let s2 ← engine fuel (.fArgs v ui (outer + 1) s)
             pure (Ty.function nb abi sf vd s2)
         | .alias a => do
             let a2 ← engine fuel (.fAlias v ui outer a)
             pure (Ty.alias a2)
         | .boundVar d i =>
             if d < outer then pure (Ty.boundVar d i)
             else UM.throw .invariantViolation)
    | .fAlias v ui outer a =>
        (match a with
         | .projection aid s => do
             let s2 ← engine fuel (.fArgs v ui outer s)
             pure (AliasT.projection aid s2)
         | .opaq oid s => do
             let s2 ← engine fuel (.fArgs v ui outer s)
             pure (AliasT.opaq oid s2))
    | .fLifetime v ui outer l =>
        (match l with
         | .placeholder u i =>
             if ui < u then do
               let tickX ← UM.newVariable ui
               pushLifetimeEqGoals env .invariant (.inferenceVar tickX) (.placeholder u i)
               pure (Lifetime.inferenceVar tickX)
             else pure (Lifetime.placeholder u i)
         | .inferenceVar w => do
             let s ← UM.get
             match s.table.probe w with
             | .unbound wu => do
                 if ui < wu then UM.unifyVarValue w (.unbound ui)
                 pure (Lifetime.inferenceVar w)
             | .boundTo (.lifetime nl) => engine fuel (.fLifetime v ui outer nl)
             | .boundTo _ => UM.throw .invariantViolation
         | .boundVar d i =>
             if d < outer then pure (Lifetime.boundVar d i)
             else UM.throw .invariantViolation)
    | .fCnst v ui outer c =>
        (match c with
         | .mk t (.inferenceVar w) => do
             let t2 ← engine fuel (.fTy v ui outer t)
             let s ← UM.get
             match s.table.probe w with
             | .boundTo (.konst nc) => engine fuel (.fCnst v ui 0 nc)
             | .boundTo _ => UM.throw .invariantViolation
             | .unbound wu => do
                 if s.table.unioned w v then UM.throw .noSolution
                 else do
                   if ui < wu then UM.unifyVarValue w (.unbound ui)
                   pure (Cnst.mk t2 (.inferenceVar w))
         | .mk t (.concrete e) => do
             let t2 ← engine fuel (.fTy v ui outer t)
             pure (Cnst.mk t2 (.concrete e))
         | .mk t (.placeholder u i) => do
             let t2 ← engine fuel (.fTy v ui outer t)
             pure (Cnst.mk t2 (.placeholder u i))
         | .mk t (.boundVar d i) => do
             let t2 ← engine fuel (.fTy v ui outer t)
             if d < outer then pure (Cnst.mk t2 (.boundVar d i))
             else UM.throw .invariantViolation)
    | .fArg v ui outer x =>
        (match x with
         | .ty t => do
             let t2 ← engine fuel (.fTy v ui outer t)
             pure (GenericArg.ty t2)
         | .lifetime l => do
             let l2 ← engine fuel (.fLifetime v ui outer l)
             pure (GenericArg.lifetime l2)
         | .konst c => do
             let c2 ← engine fuel (.fCnst v ui outer c)
             pure (GenericArg.konst c2))
    | .fArgs v ui outer xs =>
        (match xs with
         | .nil => pure Args.nil
         | .cons h t => do
             let h2 ← engine fuel (.fArg v ui outer h)
             let t2 ← engine fuel (.fArgs v ui outer t)
             pure (Args.cons h2 t2))
    | .fWC v ui outer c =>
        (match c with
         | .implemented tid s => do
             let s2 ← engine fuel (.fArgs v ui outer s)
             pure (WhereClause.implemented tid s2)
         | .aliasEq al t => do
             let al2 ← engine fuel (.fAlias v ui outer al)
             let t2 ← engine fuel (.fTy v ui outer t)
             pure (WhereClause.aliasEq al2 t2)
         | .typeOutlives t l => do
             let t2 ← engine fuel (.fTy v ui outer t)
             let l2 ← engine fuel (.fLifetime v ui outer l)
             pure (WhereClause.typeOutlives t2 l2)
         | .lifetimeOutlives la lb => do
             let la2 ← engine fuel (.fLifetime v ui outer la)
             let lb2 ← engine fuel (.fLifetime v ui outer lb)
             pure (WhereClause.lifetimeOutlives la2 lb2))
    | .fQWCs v ui outer cs =>
        (match cs with
         | .nil => pure QWClauses.nil
         | .cons (.mk kinds c) rest => do
             let c2 ← engine fuel (.fWC v ui (outer + 1) c)
             let rest2 ← engine fuel (.fQWCs v ui outer rest)
             pure (QWClauses.cons (QWClause.mk kinds c2) rest2))

/-- `Unifier::relate_ty_ty` (unify.rs line 82): shallow-normalize both
sides, then dispatch on the pair of heads in source order: var/var
(unify under Invariant, subtype goals otherwise), var against
Apply/Placeholder/Dyn/Function after the kind-compatibility check,
function/function (flags equal, then binders), the `NoSolution`
structural mismatches, placeholder/placeholder by index, apply/apply
(name equal, substitutions under declared variances), dyn/dyn, the
alias cases (inverted variance when the alias is on the right), and
panics on bound variables. -/
def relateTyTy (fuel : Nat) (variance : Variance) (a b : Ty) : UM Unit :=
  engine db env fuel (.tyTy variance a b)

/-- The kind-compatibility gate in front of `relate_var_ty`
(unify.rs lines 129-150): a General variable relates to any type, an
Integer variable only to integer applications, a Float variable only
to float applications; anything else is `NoSolution`. -/
def relateVarTyKind (fuel : Nat) (variance : Variance) (v : Nat) (kind : TyKind) (t : Ty) : UM Unit :=
  engine db env fuel (.varTyKind variance v kind t)

/-- `Unifier::relate_var_ty` (unify.rs line 424): read the table's
`max_universe` (the commented-out variant read the variable's own
universe), fold the term through the `OccursCheck` folder, re-read
`max_universe`, generalize the folded term's outermost constructor
(fresh variables for `Apply`/`Function`/`Dyn` contents, the term itself
for `Placeholder`/`BoundVar`, unreachable for `Alias`/`InferenceVar`),
and commit the bind with `unify_var_value`. -/
def relateVarTy (fuel : Nat) (variance : Variance) (v : Nat) (ty : Ty) : UM Unit :=
  engine db env fuel (.varTy variance v ty)

/-- `Unifier::relate_alias_ty` (unify.rs line 296): under Invariant
push one `AliasEq(alias = ty)` goal; otherwise allocate a fresh
variable `?X` in the root universe, push `AliasEq(alias = ?X)` and
relate `?X` with `ty` under the given variance. -/
def relateAliasTy (fuel : Nat) (variance : Variance) (al : AliasT) (ty : Ty) : UM Unit :=
  engine db env fuel (.aliasTy variance al ty)

/-- `Unifier::relate_const_const` (unify.rs line 737): shallow-normalize
both consts, relate their declared types under the given variance, then
dispatch on the values: var/var union, var against concrete or
placeholder binds the variable to the other const, placeholders zip by
index, concretes defer to the interner's `const_eq`, mixed
concrete/placeholder is `NoSolution`, bound variables panic. -/
def relateConstConst (fuel : Nat) (variance : Variance) (a b : Cnst) : UM Unit :=
  engine db env fuel (.constConst variance a b)

/-- `Unifier::generalize_generic_var` (unify.rs line 334): allocate a
fresh variable in `ui`, relate the old argument against it under the
given variance (a const variable keeps the old const's declared type),
and return the fresh-variable argument. -/
def generalizeGenericVar (fuel : Nat) (variance : Variance) (x : GenericArg) (ui : Nat) : UM GenericArg :=
  engine db env fuel (.genVar variance x ui)

/-- `Unifier::generalize_substitution` (unify.rs line 402): generalize
every argument. -/
def generalizeSubstitution (fuel : Nat) (variance : Variance) (xs : Args) (ui : Nat) : UM Args :=
  engine db env fuel (.genSubst variance xs ui)

/-- `Unifier::generalize_substitution_skip_self` (unify.rs line 380):
keep the first argument as-is and generalize the rest. -/
def generalizeSubstitutionSkipSelf (fuel : Nat) (variance : Variance) (xs : Args) (ui : Nat) : UM Args :=
  engine db env fuel (.genSubstSkip variance xs ui)

/-- The clause mapping of the `Dyn` arm of `relate_var_ty`
(unify.rs lines 487-592): each `Implemented` bound's substitution is
generalized skipping self, each `AliasEq` bound gets a generalized
alias substitution and a fresh type variable, each `TypeOutlives`
bound gets fresh type and lifetime variables, `LifetimeOutlives` is
unreachable; a `NoSolution` from a generalization is stored while the
map keeps the old clause and continues, and is returned at the end. -/
def generalizeDynClauses (fuel : Nat) (variance : Variance) (cs : QWClauses) (ui : Nat) :
    UM (QWClauses × Option Err) :=
  engine db env fuel (.genDyn variance cs ui)

/-- `Zip` on a pair of generic arguments: dispatch to the zipper's
type, lifetime or const relation; a kind mismatch is an interner
contract violation.  Modelled from the spec: chalk-ir's `Zip` impls
are not among the sources ("GenericArg: tagged union of Term,
Lifetime, Const"). -/
def zipGenericArg (fuel : Nat) (variance : Variance) (x y : GenericArg) : UM Unit :=
  engine db env fuel (.zipArg variance x y)

/-- `zip_substs` with declared parameter variances, used for
apply/apply: parameter `i` is related under `variance.xform` of its
declared variance when the database declares one, under the given
variance otherwise; a length mismatch is an interner contract
violation.  Modelled from the spec ("zip substitutions under
per-parameter declared variances from the Program"). -/
def zipApplySubsts (fuel : Nat) (declared : List Variance) (variance : Variance) (a b : Args) : UM Unit :=
  engine db env fuel (.zipApply declared variance a b)

/-- `zip_substs` without declared variances: pairwise under the given
variance; a length mismatch is an interner contract violation.
Modelled from the spec, see `zipApplySubsts`. -/
def zipArgs (fuel : Nat) (variance : Variance) (a b : Args) : UM Unit :=
  engine db env fuel (.zipArgsPlain variance a b)

/-- `Zip` on aliases: same constructor with equal id zips the
substitutions, otherwise `NoSolution`.  Modelled from the spec, see
`zipGenericArg`. -/
def zipAlias (fuel : Nat) (variance : Variance) (x y : AliasT) : UM Unit :=
  engine db env fuel (.zipAliasReq variance x y)

/-- `Zip` on where clauses: same variant zips componentwise (an
`Implemented` clause requires equal trait ids), different variants are
`NoSolution`.  Modelled from the spec, see `zipGenericArg`. -/
def zipWhereClause (fuel : Nat) (variance : Variance) (x y : WhereClause) : UM Unit :=
  engine db env fuel (.zipWC variance x y)

/-- `Zip` on lists of quantified where clauses: pairwise, length
mismatch is `NoSolution`.  Modelled from the spec, see
`zipGenericArg`. -/
def zipQWClauses (fuel : Nat) (variance : Variance) (x y : QWClauses) : UM Unit :=
  engine db env fuel (.zipQWCs variance x y)

/-- `Unifier::relate_binders` (unify.rs line 250) for a binders pair
whose bodies are substitutions (the function-pointer case): relate
`a` instantiated universally against `b` instantiated existentially,
then `b` instantiated universally against `a` instantiated
existentially (in that instantiation order). -/
def relateBindersArgs (fuel : Nat) (variance : Variance) (ka : VKinds) (ba : Args)
    (kb : VKinds) (bb : Args) : UM Unit :=
  engine db env fuel (.bindersArgs variance ka ba kb bb)

/-- `Unifier::relate_binders` for a binders pair whose bodies are
where clauses (the quantified-where-clause case). -/
def relateBindersClause (fuel : Nat) (variance : Variance) (ka : VKinds) (ba : WhereClause)
    (kb : VKinds) (bb : WhereClause) : UM Unit :=
  engine db env fuel (.bindersClause variance ka ba kb bb)

/-- `Unifier::relate_binders` for a binders pair whose bodies are
lists of quantified where clauses (the `dyn` bound-bag case). -/
def relateBindersQWCs (fuel : Nat) (variance : Variance) (ka : VKinds) (ba : QWClauses)
    (kb : VKinds) (bb : QWClauses) : UM Unit :=
  engine db env fuel (.bindersQWCs variance ka ba kb bb)

/-- `OccursCheck` fold on types (unify.rs lines 919-1022 and the
structural `super_fold`): free type placeholders above the scope
universe are `NoSolution`, inference variables are normalized through
their bound value (folded at the innermost level) or cycle-checked and
promoted, bound variables must be bound by an enclosing binder,
everything else folds structurally. -/
def foldTy (fuel : Nat) (v ui outer : Nat) (t : Ty) : UM Ty :=
  engine db env fuel (.fTy v ui outer t)

/-- `OccursCheck` fold on aliases, see `foldTy`. -/
def foldAlias (fuel : Nat) (v ui outer : Nat) (a : AliasT) : UM AliasT :=
  engine db env fuel (.fAlias v ui outer a)

/-- `OccursCheck` fold on lifetimes (unify.rs lines 944-978 and
1024-1058): an out-of-scope placeholder is replaced by a fresh
variable in the scope universe with invariant outlives goals to the
placeholder; an inference variable is promoted if unbound (no cycle
check for lifetimes) or normalized through its value; bound variables
must be bound. -/
def foldLifetime (fuel : Nat) (v ui outer : Nat) (l : Lifetime) : UM Lifetime :=
  engine db env fuel (.fLifetime v ui outer l)

/-- `OccursCheck` fold on consts.  The declared type folds like any
type; a variable value is normalized through its bound const,
cycle-checked and promoted.  The variable handling is modelled from
the spec (§4.5: free inference variables are normalized or promoted;
§4.4 step 2: a variable union-find-equal to the bind target fails) —
the chalk-ir default const hooks are not among the sources.  Concrete
and placeholder values pass through; bound variables must be bound. -/
def foldCnst (fuel : Nat) (v ui outer : Nat) (c : Cnst) : UM Cnst :=
  engine db env fuel (.fCnst v ui outer c)

/-- `OccursCheck` fold on generic arguments, see `foldTy`. -/
def foldGenericArg (fuel : Nat) (v ui outer : Nat) (x : GenericArg) : UM GenericArg :=
  engine db env fuel (.fArg v ui outer x)

/-- `OccursCheck` fold on argument sequences, see `foldTy`. -/
def foldArgs (fuel : Nat) (v ui outer : Nat) (xs : Args) : UM Args :=
  engine db env fuel (.fArgs v ui outer xs)

/-- `OccursCheck` fold on where clauses, see `foldTy`. -/
def foldWhereClause (fuel : Nat) (v ui outer : Nat) (c : WhereClause) : UM WhereClause :=
  engine db env fuel (.fWC v ui outer c)

/-- `OccursCheck` fold on lists of quantified where clauses, each
clause folding under its own binder, see `foldTy`. -/
def foldQWClauses (fuel : Nat) (v ui outer : Nat) (cs : QWClauses) : UM QWClauses :=
  engine db env fuel (.fQWCs v ui outer cs)

/-- The result of a successful relation
(`RelationResult { goals }`). -/
structure RelationResult where
  goals : List Goal
  deriving DecidableEq

/-- `InferenceTable::relate` (unify.rs lines 14-38): snapshot, run a
fresh `Unifier` (empty goals) on the pair, commit and surface the
goals on `Ok`, roll back to the snapshot on `Err`.  The snapshot /
rollback semantics is modelled from the spec (§4.3, §5: "rollback
restores the inference state byte-for-byte"): the whole table is the
snapshot. -/
def relate (fuel : Nat) (variance : Variance) (a b : GenericArg) (t : Table) :
    Except Err RelationResult × Table :=
  match zipGenericArg db env fuel variance a b { table := t, goals := [] } with
  | (.ok _, s') => (.ok { goals := s'.goals }, s'.table)
  | (.error e, _) => (.error e, t)

end Engine

/-- A trait reference (`chalk_ir::TraitRef`): trait id and
substitution. -/
structure TraitRef where
  traitId : Nat
  substitution : Args
  deriving DecidableEq

/-- An impl datum as seen by the candidate lookup
(`ImplDatum.binders.skip_binders().trait_ref`): a binder count and the
trait reference under the binders. -/
structure ImplDatum where
  binderCount : Nat
  traitRef : TraitRef
  deriving DecidableEq

/-- `CouldMatch` on a pair of types.  Modelled from the spec:
`chalk_ir::could_match` is not among the sources ("a shallow
same-constructor filter (no unification yet)"; "purely syntactic: same
head constructor allowed through, everything else (including
unifiability under subst) is left to the caller"): two applications
match when their head names agree; every other pair is allowed
through. -/
def couldMatchTy : Ty → Ty → Bool
  | .apply n1 _, .apply n2 _ => n1 == n2
  | _, _ => true

/-- `CouldMatch` on generic arguments: type pairs filter by head
constructor, everything else is allowed through.  Modelled from the
spec, see `couldMatchTy`. -/
def couldMatchArg : GenericArg → GenericArg → Bool
  | .ty t1, .ty t2 => couldMatchTy t1 t2
  | _, _ => true

/-- `CouldMatch` on argument lists: pairwise.  Modelled from the spec,
see `couldMatchTy`. -/
def couldMatchArgs : Args → Args → Bool
  | .nil, _ => true
  | _, .nil => true
  | .cons x xs, .cons y ys => couldMatchArg x y && couldMatchArgs xs ys

/-- `Program::impls_for_trait` (program.rs lines 367-388): walk the
impl store in order; an impl whose trait-ref head equals `traitId`
first asserts that its substitution length equals the parameter count
(`none` models the `assert_eq!` panic) and is kept exactly when the
parameters could match its substitution; other impls are skipped.  No
unification is performed. -/
def implsForTrait (implData : List (Nat × ImplDatum)) (traitId : Nat)
    (parameters : Args) : Option (List Nat) :=
  match implData with
  | [] => some []
  | (implId, datum) :: rest =>
      if datum.traitRef.traitId = traitId then
        if datum.traitRef.substitution.len = parameters.len then
          match implsForTrait rest traitId parameters with
          | some l =>
              some (if couldMatchArgs parameters datum.traitRef.substitution
                    then implId :: l else l)
          | none => none
        else none
      else implsForTrait rest traitId parameters

/-- The outlives goals `push_lifetime_eq_goals` emits for a pair under
a variance: `(a, b)` under Invariant or Covariant, then `(b, a)` under
Invariant or Contravariant. -/
def outlivesGoals (env : Nat) (variance : Variance) (a b : Lifetime) : List Goal :=
  (if variance = .invariant ∨ variance = .covariant
   then [Goal.lifetimeOutlives env a b] else []) ++
  (if variance = .invariant ∨ variance = .contravariant
   then [Goal.lifetimeOutlives env b a] else [])

/-- The const relation as the spec describes it, for comparison with
`relateConstConst`: identical dispatch, but the declared types are
related *invariantly* ("first relate the consts' declared types
invariantly") instead of under the given variance. -/
def relateConstConstSpecWords (db : UDb) (env : Nat) (fuel : Nat) (variance : Variance)
    (a0 b0 : Cnst) : UM Unit := do
  let s ← UM.get
  match (normalizeConstShallow s.table a0).getD a0,
        (normalizeConstShallow s.table b0).getD b0 with
  | .mk aTy aVal, .mk bTy bVal => do
      relateTyTy db env fuel .invariant aTy bTy
      match aVal, bVal with
      | .inferenceVar v1, .inferenceVar v2 => UM.unifyVarVar v1 v2
      | .inferenceVar v, .concrete e2 => unifyVarConst v (.mk bTy (.concrete e2))
      | .inferenceVar v, .placeholder u2 i2 => unifyVarConst v (.mk bTy (.placeholder u2 i2))
      | .concrete e1, .inferenceVar v => unifyVarConst v (.mk aTy (.concrete e1))
      | .placeholder u1 i1, .inferenceVar v => unifyVarConst v (.mk aTy (.placeholder u1 i1))
      | .placeholder u1 i1, .placeholder u2 i2 =>
          if (u1, i1) = (u2, i2) then pure () else UM.throw .noSolution
      | .concrete e1, .concrete e2 =>
          if constEq aTy e1 e2 then pure () else UM.throw .noSolution
      | .concrete _, .placeholder _ _ => UM.throw .noSolution
      | .placeholder _ _, .concrete _ => UM.throw .noSolution
      | .boundVar _ _, _ => UM.throw .invariantViolation
      | _, .boundVar _ _ => UM.throw .invariantViolation

/-- Whether a (normalized) type's head is one the alias-deferral
dispatch of `relate_ty_ty` pairs against an alias: anything except an
alias (which takes the left-alias arm) or a bound variable (which
panics). -/
def Ty.headDeferrable : Ty → Bool
  | .alias _ => false
  | .boundVar _ _ => false
  | _ => true

mutual

/-- Every type placeholder occurring in the type has universe `≤ U`. -/
def phBoundTy (U : Nat) : Ty → Bool
  | .apply _ s => phBoundArgs U s
  | .placeholder u _ => decide (u ≤ U)
  | .inferenceVar _ _ => true
  | .dyn _ bs _ => phBoundQWCs U bs
  | .function _ _ _ _ s => phBoundArgs U s
  | .alias a => phBoundAlias U a
  | .boundVar _ _ => true

/-- Every type placeholder in the alias's substitution has universe
`≤ U`. -/
def phBoundAlias (U : Nat) : AliasT → Bool
  | .projection _ s => phBoundArgs U s
  | .opaq _ s => phBoundArgs U s

/-- Every type placeholder in the const's declared type has universe
`≤ U` (const values hold no type placeholders). -/
def phBoundCnst (U : Nat) : Cnst → Bool
  | .mk t _ => phBoundTy U t

/-- Every type placeholder in the argument has universe `≤ U`. -/
def phBoundArg (U : Nat) : GenericArg → Bool
  | .ty t => phBoundTy U t
  | .lifetime _ => true
  | .konst c => phBoundCnst U c

/-- Every type placeholder in the argument sequence has universe
`≤ U`. -/
def phBoundArgs (U : Nat) : Args → Bool
  | .nil => true
  | .cons h t => phBoundArg U h && phBoundArgs U t

/-- Every type placeholder in the where clause has universe `≤ U`. -/
def phBoundWC (U : Nat) : WhereClause → Bool
  | .implemented _ s => phBoundArgs U s
  | .aliasEq al t => phBoundAlias U al && phBoundTy U t
  | .typeOutlives t _ => phBoundTy U t
  | .lifetimeOutlives _ _ => true

/-- Every type placeholder in the quantified where clause has universe
`≤ U`. -/
def phBoundQWC (U : Nat) : QWClause → Bool
  | .mk _ c => phBoundWC U c

/-- Every type placeholder in the clause list has universe `≤ U`. -/
def phBoundQWCs (U : Nat) : QWClauses → Bool
  | .nil => true
  | .cons h t => phBoundQWC U h && phBoundQWCs U t

end

/-- A node of the term grammar, for stating occurrence of a variable
across the mutually inductive syntax in one inductive predicate. -/
inductive Node
  | ty (t : Ty)
  | arg (x : GenericArg)
  | args (xs : Args)
  | aliasN (a : AliasT)
  | cnst (c : Cnst)
  | wc (c : WhereClause)
  | qwc (c : QWClause)
  | qwcs (cs : QWClauses)

/-- A variable union-find-equal to `v` occurs in the node after
normalization of bound variables: either an unbound type or const
inference variable whose class is `v`'s, or an occurrence inside the
stored value of a bound variable, or an occurrence in a structural
child.  Lifetimes carry no occurrence: a lifetime subtree can never
contain a type or const variable, and the occurs check does not
cycle-check lifetime variables. -/
inductive OccursIn (tbl : Table) (v : Nat) : Node → Prop
  | tyVarUnioned {w : Nat} {kind : TyKind}
      (hu : tbl.unioned w v = true) (hb : tbl.boundVal w = none) :
      OccursIn tbl v (.ty (.inferenceVar w kind))
  | tyVarBound {w : Nat} {kind : TyKind} {a : GenericArg}
      (hb : tbl.boundVal w = some a) (h : OccursIn tbl v (.arg a)) :
      OccursIn tbl v (.ty (.inferenceVar w kind))
  | applyArgs {n : TypeName} {s : Args} (h : OccursIn tbl v (.args s)) :
      OccursIn tbl v (.ty (.apply n s))
  | dynBounds {ks : VKinds} {bs : QWClauses} {lt : Lifetime}
      (h : OccursIn tbl v (.qwcs bs)) :
      OccursIn tbl v (.ty (.dyn ks bs lt))
  | fnArgs {nb abi : Nat} {sf vd : Bool} {s : Args} (h : OccursIn tbl v (.args s)) :
      OccursIn tbl v (.ty (.function nb abi sf vd s))
  | tyAlias {a : AliasT} (h : OccursIn tbl v (.aliasN a)) :
      OccursIn tbl v (.ty (.alias a))
  | argTy {t : Ty} (h : OccursIn tbl v (.ty t)) :
      OccursIn tbl v (.arg (.ty t))
  | argCnst {c : Cnst} (h : OccursIn tbl v (.cnst c)) :
      OccursIn tbl v (.arg (.konst c))
  | argsHead {x : GenericArg} {t : Args} (h : OccursIn tbl v (.arg x)) :
      OccursIn tbl v (.args (.cons x t))
  | argsTail {x : GenericArg} {t : Args} (h : OccursIn tbl v (.args t)) :
      OccursIn tbl v (.args (.cons x t))
  | projArgs {id : Nat} {s : Args} (h : OccursIn tbl v (.args s)) :
      OccursIn tbl v (.aliasN (.projection id s))
  | opaqArgs {id : Nat} {s : Args} (h : OccursIn tbl v (.args s)) :
      OccursIn tbl v (.aliasN (.opaq id s))
  | cnstTy {t : Ty} {val : ConstValue} (h : OccursIn tbl v (.ty t)) :
      OccursIn tbl v (.cnst (.mk t val))
  | cnstVarUnioned {t : Ty} {w : Nat}
      (hu : tbl.unioned w v = true) (hb : tbl.boundVal w = none) :
      OccursIn tbl v (.cnst (.mk t (.inferenceVar w)))
  | cnstVarBound {t : Ty} {w : Nat} {a : GenericArg}
      (hb : tbl.boundVal w = some a) (h : OccursIn tbl v (.arg a)) :
      OccursIn tbl v (.cnst (.mk t (.inferenceVar w)))
  | wcImplArgs {tid : Nat} {s : Args} (h : OccursIn tbl v (.args s)) :
      OccursIn tbl v (.wc (.implemented tid s))
  | wcAliasEqAlias {a : AliasT} {t : Ty} (h : OccursIn tbl v (.aliasN a)) :
      OccursIn tbl v (.wc (.aliasEq a t))
  | wcAliasEqTy {a : AliasT} {t : Ty} (h : OccursIn tbl v (.ty t)) :
      OccursIn tbl v (.wc (.aliasEq a t))
  | wcTypeOutlives {t : Ty} {l : Lifetime} (h : OccursIn tbl v (.ty t)) :
      OccursIn tbl v (.wc (.typeOutlives t l))
  | qwcClause {ks : VKinds} {c : WhereClause} (h : OccursIn tbl v (.wc c)) :
      OccursIn tbl v (.qwc (.mk ks c))
  | qwcsHead {c : QWClause} {cs : QWClauses} (h : OccursIn tbl v (.qwc c)) :
      OccursIn tbl v (.qwcs (.cons c cs))
  | qwcsTail {c : QWClause} {cs : QWClauses} (h : OccursIn tbl v (.qwcs cs)) :
      OccursIn tbl v (.qwcs (.cons c cs))

end Chalk

namespace ChalkRust

mutual

/-- A type of the early chalk-rust solver (`chalk-rust ir::Ty` as used
by `solve/infer/table.rs`): a variable at a depth, an application, or
a projection. -/
inductive OldTy
  | var (depth : Nat)
  | apply (id : Nat) (args : OldTys)
  | proj (id : Nat) (args : OldTys)
  deriving DecidableEq

/-- Argument list of an early-solver application. -/
inductive OldTys
  | nil
  | cons (head : OldTy) (tail : OldTys)
  deriving DecidableEq

end

/-- `InferenceValue` of the early table: unbound with a universe, or
bound to an index into the table's `values` vector. -/
inductive OldInfVal
  | unbound (ui : Nat)
  | bound (valIdx : Nat)
  deriving DecidableEq

/-- The early `InferenceTable` (table.rs lines 10-14): an ena
union-find over inference variables plus a `values` vector.  The
union-find is modelled as in `Chalk.Table`:  `repr` maps every
variable to its representative and `vals` holds each slot's value. -/
structure OldTable where
  repr : List Nat
  vals : List OldInfVal
  values : List OldTy
  deriving DecidableEq

/-- Representative of a variable. -/
def OldTable.reprOf (t : OldTable) (v : Nat) : Nat := t.repr.getD v v

/-- `probe_value` of the early table. -/
def OldTable.probe (t : OldTable) (v : Nat) : OldInfVal :=
  t.vals.getD (t.reprOf v) (.unbound 0)

/-- `Ty::inference_var` (table.rs line 94): the variable of a `Var`
leaf. -/
def OldTy.inferenceVar? : OldTy → Option Nat
  | .var depth => some depth
  | _ => none

/-- `InferenceTable::normalize_shallow` (table.rs lines 75-83): if the
leaf is a variable bound in the table, return the stored value from
`values`, else `none`.  An out-of-range stored index reads as `none`
(the Rust code would panic there). -/
def normalizeShallow (t : OldTable) (leaf : OldTy) : Option OldTy :=
  leaf.inferenceVar?.bind fun v =>
    match t.probe v with
    | .unbound _ => none
    | .bound valIdx => t.values.get? valIdx

/-- `normalize_shallow` read as a total function: a `none` result
returns the input unchanged. -/
def normalizeShallowTotal (t : OldTable) (leaf : OldTy) : OldTy :=
  (normalizeShallow t leaf).getD leaf

end ChalkRust

namespace Chalk

/-- Running a bind: run the first computation, then feed its value and
state to the continuation; an error short-circuits with its state. -/
theorem UM.run_bind {α β : Type} (m : UM α) (f : α → UM β) (s : UState) :
    (m >>= f) s =
      (match m s with
       | (.ok a, s') => f a s'
       | (.error e, s') => (.error e, s')) := rfl

/-- Running `pure`. -/
theorem UM.run_pure {α : Type} (a : α) (s : UState) :
    (pure a : UM α) s = (.ok a, s) := rfl

/-- A bind yields `ok` exactly when both stages do. -/
theorem UM.bind_ok_iff {α β : Type} {m : UM α} {f : α → UM β} {s : UState}
    {b : β} {s2 : UState} :
    (m >>= f) s = (.ok b, s2) ↔
      ∃ a s1, m s = (.ok a, s1) ∧ f a s1 = (.ok b, s2) := by
  rw [UM.run_bind]
  cases h : m s with
  | mk r s1 =>
      cases r with
      | ok a =>
          constructor
          · intro hh
            exact ⟨a, s1, rfl, hh⟩
          · rintro ⟨a', s1', h1, h2⟩
            obtain ⟨rfl, rfl⟩ : a = a' ∧ s1 = s1' := by
              have := h1
              rw [Prod.mk.injEq] at this
              exact ⟨Except.ok.inj this.1, this.2⟩
            exact h2
      | error e =>
          constructor
          · intro hh
            cases hh
          · rintro ⟨a', s1', h1, h2⟩
            cases h1

/-- Running `get` and binding. -/
theorem UM.run_get_bind {α : Type} (f : UState → UM α) (s : UState) :
    (UM.get >>= f) s = f s s := rfl

/-- Running `throw`. -/
theorem UM.run_throw {α : Type} (e : Err) (s : UState) :
    (UM.throw e : UM α) s = (.error e, s) := rfl

/-- A `pure` yielding `ok` forces value and state. -/
theorem UM.pure_ok {α : Type} {a b : α} {s s' : UState}
    (h : (pure a : UM α) s = (.ok b, s')) : a = b ∧ s = s' := by
  rw [UM.run_pure] at h
  rw [Prod.mk.injEq] at h
  exact ⟨Except.ok.inj h.1, h.2⟩

/-- A map (bind into `pure`) yielding `ok` factors through the
underlying computation. -/
theorem UM.map_ok {α β : Type} {m : UM α} {g : α → β} {s : UState} {r : β} {s' : UState}
    (h : (m >>= fun x => pure (g x)) s = (.ok r, s')) :
    ∃ a, m s = (.ok a, s') ∧ r = g a := by
  rw [UM.bind_ok_iff] at h
  obtain ⟨a, s1, h1, h2⟩ := h
  obtain ⟨hv, hs⟩ := UM.pure_ok h2
  exact ⟨a, by rw [hs] at h1; exact h1, hv.symm⟩

/-- `List.getD` after `set` at a different index. -/
theorem getD_set_ne {α : Type _} (l : List α) {i j : Nat} (a d : α) (h : i ≠ j) :
    (l.set i a).getD j d = l.getD j d := by
  by_cases hj : j < l.length
  · rw [List.getD_eq_getElem _ _ (by simpa using hj), List.getD_eq_getElem _ _ hj]
    simp [List.getElem_set_ne h]
  · rw [List.getD_eq_default _ _ (by simpa using Nat.le_of_not_lt hj),
        List.getD_eq_default _ _ (Nat.le_of_not_lt hj)]

/-- `List.getD` after `set` at the same in-range index. -/
theorem getD_set_self {α : Type _} (l : List α) {i : Nat} (a d : α) (h : i < l.length) :
    (l.set i a).getD i d = a := by
  rw [List.getD_eq_getElem _ _ (by simpa using h)]
  simp

/-- `List.getD` after `set` at the same out-of-range index. -/
theorem getD_set_oob {α : Type _} (l : List α) {i : Nat} (a d : α) (h : ¬ i < l.length) :
    (l.set i a).getD i d = d := by
  rw [List.getD_eq_default _ _ (by simpa using Nat.le_of_not_lt h)]

/-- Allocating a fresh variable does not change any representative. -/
theorem Table.newVariable_reprOf (t : Table) (u w : Nat) :
    ((t.newVariable u).2).reprOf w = t.reprOf w := by
  show (t.repr ++ [t.next]).getD w w = t.repr.getD w w
  by_cases hw : w < t.repr.length
  · rw [List.getD_append _ _ _ _ hw]
  · by_cases hew : w = t.repr.length
    · subst hew
      rw [List.getD_eq_getElem _ _ (by simp), List.getD_eq_default _ _ (le_refl _)]
      simp [Table.next]
    · rw [List.getD_eq_default _ _ (Nat.le_of_not_lt hw),
          List.getD_eq_default _ _ (by simp; omega)]

/-- Allocating a fresh variable does not change any bound value. -/
theorem Table.newVariable_boundVal (t : Table) (u w : Nat) :
    ((t.newVariable u).2).boundVal w = t.boundVal w := by
  show (match ((t.newVariable u).2).probe w with
        | .boundTo a => some a | .unbound _ => none) = _
  show (match (t.vals ++ [InfVal.unbound u]).getD (((t.newVariable u).2).reprOf w)
          (InfVal.unbound 0) with
        | .boundTo a => some a | .unbound _ => none) = _
  rw [Table.newVariable_reprOf]
  by_cases hr : t.reprOf w < t.vals.length
  · rw [List.getD_append _ _ _ _ hr]
    rfl
  · have hrhs : t.boundVal w = none := by
      show (match t.vals.getD (t.reprOf w) (InfVal.unbound 0) with
            | .boundTo a => some a | .unbound _ => none) = none
      rw [List.getD_eq_default _ _ (Nat.le_of_not_lt hr)]
    rw [hrhs]
    by_cases her : t.reprOf w = t.vals.length
    · rw [her, List.getD_eq_getElem _ _ (by simp)]
      simp
    · rw [List.getD_eq_default _ _ (by simp; omega)]

/-- Overwriting an unbound slot with an unbound value (a promotion)
does not change any representative. -/
theorem Table.unifyVarValue_reprOf (t : Table) (x : Nat) (val : InfVal) (w : Nat) :
    ((t.unifyVarValue x val).reprOf w) = t.reprOf w := rfl

/-- Overwriting an unbound slot with an unbound value (a promotion)
does not change any bound value. -/
theorem Table.unifyVarValue_unbound_boundVal (t : Table) (x u' w wu : Nat)
    (hx : t.probe x = .unbound wu) :
    (t.unifyVarValue x (.unbound u')).boundVal w = t.boundVal w := by
  show (match (t.vals.set (t.reprOf x) (.unbound u')).getD
          ((t.unifyVarValue x (.unbound u')).reprOf w) (InfVal.unbound 0) with
        | .boundTo a => some a | .unbound _ => none) = _
  rw [Table.unifyVarValue_reprOf]
  by_cases h : t.reprOf w = t.reprOf x
  · rw [h]
    by_cases hr : t.reprOf x < t.vals.length
    · rw [getD_set_self _ _ _ hr]
      have : t.boundVal x = none := by
        show (match t.probe x with | .boundTo a => some a | .unbound _ => none) = none
        rw [hx]
      rw [show t.boundVal w = none from by
        show (match t.vals.getD (t.reprOf w) (InfVal.unbound 0) with
              | .boundTo a => some a | .unbound _ => none) = none
        rw [h]
        have hx' : t.vals.getD (t.reprOf x) (InfVal.unbound 0) = .unbound wu := hx
        rw [hx']]
    · rw [getD_set_oob _ _ _ hr]
      rw [show t.boundVal w = none from by
        show (match t.vals.getD (t.reprOf w) (InfVal.unbound 0) with
              | .boundTo a => some a | .unbound _ => none) = none
        rw [h, List.getD_eq_default _ _ (Nat.le_of_not_lt hr)]]
  · rw [getD_set_ne _ _ _ (fun hh => h hh.symm)]
    rfl

/-- `unioned` depends only on representatives. -/
theorem unioned_congr {t t' : Table} (hr : ∀ w, t'.reprOf w = t.reprOf w) (a b : Nat) :
    t'.unioned a b = t.unioned a b := by
  show (t'.reprOf a == t'.reprOf b) = (t.reprOf a == t.reprOf b)
  rw [hr, hr]

/-- Occurrence of a variable is preserved by any state change that
keeps every representative and every bound value (promotions and fresh
allocations). -/
theorem occursIn_preserved {t t' : Table} (hr : ∀ w, t'.reprOf w = t.reprOf w)
    (hb : ∀ w, t'.boundVal w = t.boundVal w) {v : Nat} {nd : Node}
    (h : OccursIn t v nd) : OccursIn t' v nd := by
  induction h with
  | tyVarUnioned hu hbv =>
      exact .tyVarUnioned (by rw [unioned_congr hr]; exact hu) (by rw [hb]; exact hbv)
  | tyVarBound hbv h ih => exact .tyVarBound (by rw [hb]; exact hbv) ih
  | applyArgs h ih => exact .applyArgs ih
  | dynBounds h ih => exact .dynBounds ih
  | fnArgs h ih => exact .fnArgs ih
  | tyAlias h ih => exact .tyAlias ih
  | argTy h ih => exact .argTy ih
  | argCnst h ih => exact .argCnst ih
  | argsHead h ih => exact .argsHead ih
  | argsTail h ih => exact .argsTail ih
  | projArgs h ih => exact .projArgs ih
  | opaqArgs h ih => exact .opaqArgs ih
  | cnstTy h ih => exact .cnstTy ih
  | cnstVarUnioned hu hbv =>
      exact .cnstVarUnioned (by rw [unioned_congr hr]; exact hu) (by rw [hb]; exact hbv)
  | cnstVarBound hbv h ih => exact .cnstVarBound (by rw [hb]; exact hbv) ih
  | wcImplArgs h ih => exact .wcImplArgs ih
  | wcAliasEqAlias h ih => exact .wcAliasEqAlias ih
  | wcAliasEqTy h ih => exact .wcAliasEqTy ih
  | wcTypeOutlives h ih => exact .wcTypeOutlives ih
  | qwcClause h ih => exact .qwcClause ih
  | qwcsHead h ih => exact .qwcsHead ih
  | qwcsTail h ih => exact .qwcsTail ih

/-- Running `push_lifetime_eq_goals` appends exactly the
variance-selected outlives goals and leaves the table alone. -/
theorem run_pushLifetimeEqGoals (env : Nat) (variance : Variance) (a b : Lifetime)
    (s : UState) :
    pushLifetimeEqGoals env variance a b s =
      (.ok (), ⟨s.table, s.goals ++ outlivesGoals env variance a b⟩) := by
  cases variance <;>
    simp [pushLifetimeEqGoals, outlivesGoals, UM.pushGoal, UM.run_bind, UM.run_pure]

/-- `Table.Pres` is reflexive. -/
theorem Table.Pres.reflP (t : Table) : Table.Pres t t :=
  ⟨fun _ => rfl, fun _ => rfl⟩

/-- `Table.Pres` is transitive. -/
theorem Table.Pres.transP {t1 t2 t3 : Table} (h1 : Table.Pres t1 t2)
    (h2 : Table.Pres t2 t3) : Table.Pres t1 t3 :=
  ⟨fun w => (h2.1 w).trans (h1.1 w), fun w => (h2.2 w).trans (h1.2 w)⟩

/-- A promotion (overwriting an unbound slot with an unbound value)
preserves the observable table. -/
theorem Table.Pres.ofUnifyUnbound {t : Table} {x wu : Nat} (u' : Nat)
    (hx : t.probe x = .unbound wu) :
    Table.Pres t (t.unifyVarValue x (.unbound u')) :=
  ⟨fun _ => rfl, fun w => Table.unifyVarValue_unbound_boundVal t x u' w wu hx⟩

/-- A fresh allocation preserves the observable table. -/
theorem Table.Pres.ofNewVariable (t : Table) (u : Nat) :
    Table.Pres t ((t.newVariable u).2) :=
  ⟨fun w => Table.newVariable_reprOf t u w, fun w => Table.newVariable_boundVal t u w⟩

/-- Fuel zero never yields `ok`. -/
theorem engine_zero_not_ok (db : UDb) (env : Nat) {c : Req} {s : UState}
    {r : EngineRet c} {s' : UState} (h : engine db env 0 c s = (.ok r, s')) : False := by
  replace h : ((Except.error Err.outOfFuel : Except Err (EngineRet c)), s) = (.ok r, s') := h
  simp at h

/-- The `OccursCheck` fold only promotes variables and allocates fresh
ones: a successful fold of any node preserves every representative and
every bound value of the table. -/
theorem fold_pres (db : UDb) (env : Nat) : ∀ fuel : Nat,
    (∀ v ui outer t s r s',
       engine db env fuel (.fTy v ui outer t) s = (.ok r, s') → Table.Pres s.table s'.table) ∧
    (∀ v ui outer a s r s',
       engine db env fuel (.fAlias v ui outer a) s = (.ok r, s') → Table.Pres s.table s'.table) ∧
    (∀ v ui outer l s r s',
       engine db env fuel (.fLifetime v ui outer l) s = (.ok r, s') → Table.Pres s.table s'.table) ∧
    (∀ v ui outer c s r s',
       engine db env fuel (.fCnst v ui outer c) s = (.ok r, s') → Table.Pres s.table s'.table) ∧
    (∀ v ui outer x s r s',
       engine db env fuel (.fArg v ui outer x) s = (.ok r, s') → Table.Pres s.table s'.table) ∧
    (∀ v ui outer xs s r s',
       engine db env fuel (.fArgs v ui outer xs) s = (.ok r, s') → Table.Pres s.table s'.table) ∧
    (∀ v ui outer c s r s',
       engine db env fuel (.fWC v ui outer c) s = (.ok r, s') → Table.Pres s.table s'.table) ∧
    (∀ v ui outer cs s r s',
       engine db env fuel (.fQWCs v ui outer cs) s = (.ok r, s') → Table.Pres s.table s'.table) := by
  intro fuel
  induction fuel with
  | zero =>
      refine ⟨?_, ?_, ?_, ?_, ?_, ?_, ?_, ?_⟩ <;>
        exact fun _ _ _ _ _ _ _ h => absurd (engine_zero_not_ok db env h) (fun f => f)
  | succ fuel ih =>
      obtain ⟨ihTy, ihAlias, ihLt, ihCnst, ihArg, ihArgs, ihWC, ihQWCs⟩ := ih
      refine ⟨?_, ?_, ?_, ?_, ?_, ?_, ?_, ?_⟩
      · intro v ui outer t s r s' h
        cases t with
        | apply n s2 =>
            replace h : (engine db env fuel (.fArgs v ui outer s2) >>=
                fun x => pure (Ty.apply n x)) s = (.ok r, s') := h
            obtain ⟨a, h1, _⟩ := UM.map_ok h
            exact ihArgs v ui outer s2 s a s' h1
        | placeholder u i =>
            replace h : (if ui < u then (UM.throw .noSolution : UM Ty)
                else pure (.placeholder u i)) s = (.ok r, s') := h
            by_cases hc : ui < u
            · rw [if_pos hc, UM.run_throw] at h
              simp at h
            · rw [if_neg hc] at h
              obtain ⟨_, hs⟩ := UM.pure_ok h
              rw [← hs]
              exact Table.Pres.reflP _
        | inferenceVar w kind =>
            simp only [engine] at h
            rw [UM.run_get_bind] at h
            cases hp : s.table.probe w with
            | boundTo a =>
                rw [hp] at h
                cases a with
                | ty nt => exact ihTy v ui 0 nt s r s' h
                | lifetime l => dsimp only at h; rw [UM.run_throw] at h; simp at h
                | konst c => dsimp only at h; rw [UM.run_throw] at h; simp at h
            | unbound wu =>
                rw [hp] at h
                dsimp only at h
                by_cases hu : s.table.unioned w v = true
                · rw [if_pos hu, UM.run_throw] at h
                  simp at h
                · rw [if_neg hu] at h
                  by_cases hw : ui < wu
                  · rw [if_pos hw, UM.run_bind] at h
                    replace h : (pure (Ty.inferenceVar w kind) : UM Ty)
                        ⟨s.table.unifyVarValue w (.unbound ui), s.goals⟩ = (.ok r, s') := h
                    obtain ⟨_, hs⟩ := UM.pure_ok h
                    rw [← hs]
                    exact Table.Pres.ofUnifyUnbound ui hp
                  · rw [if_neg hw] at h
                    obtain ⟨_, hs⟩ := UM.pure_ok h
                    rw [← hs]
                    exact Table.Pres.reflP _
        | dyn ks bs lt =>
            replace h : (engine db env fuel (.fQWCs v ui (outer + 1) bs) >>= fun bs2 =>
                engine db env fuel (.fLifetime v ui outer lt) >>= fun lt2 =>
                pure (Ty.dyn ks bs2 lt2)) s = (.ok r, s') := h
            rw [UM.bind_ok_iff] at h
            obtain ⟨bs2, s1, h1, h⟩ := h
            obtain ⟨lt2, h2, _⟩ := UM.map_ok h
            exact (ihQWCs v ui (outer + 1) bs s bs2 s1 h1).transP
              (ihLt v ui outer lt s1 lt2 s' h2)
        | function nb abi sf vd s2 =>
            replace h : (engine db env fuel (.fArgs v ui (outer + 1) s2) >>=
                fun x => pure (Ty.function nb abi sf vd x)) s = (.ok r, s') := h
            obtain ⟨a, h1, _⟩ := UM.map_ok h
            exact ihArgs v ui (outer + 1) s2 s a s' h1
        | «alias» a =>
            replace h : (engine db env fuel (.fAlias v ui outer a) >>=
                fun x => pure (Ty.alias x)) s = (.ok r, s') := h
            obtain ⟨a2, h1, _⟩ := UM.map_ok h
            exact ihAlias v ui outer a s a2 s' h1
        | boundVar d i =>
            replace h : (if d < outer then pure (Ty.boundVar d i)
                else (UM.throw .invariantViolation : UM Ty)) s = (.ok r, s') := h
            by_cases hc : d < outer
            · rw [if_pos hc] at h
              obtain ⟨_, hs⟩ := UM.pure_ok h
              rw [← hs]
              exact Table.Pres.reflP _
            · rw [if_neg hc, UM.run_throw] at h
              simp at h
      · intro v ui outer a s r s' h
        cases a with
        | projection aid s2 =>
            replace h : (engine db env fuel (.fArgs v ui outer s2) >>=
                fun x => pure (AliasT.projection aid x)) s = (.ok r, s') := h
            obtain ⟨a2, h1, _⟩ := UM.map_ok h
            exact ihArgs v ui outer s2 s a2 s' h1
        | opaq oid s2 =>
            replace h : (engine db env fuel (.fArgs v ui outer s2) >>=
                fun x => pure (AliasT.opaq oid x)) s = (.ok r, s') := h
            obtain ⟨a2, h1, _⟩ := UM.map_ok h
            exact ihArgs v ui outer s2 s a2 s' h1
      · intro v ui outer l s r s' h
        cases l with
        | placeholder u i =>
            replace h : (if ui < u then
                (UM.newVariable ui >>= fun tickX =>
                 pushLifetimeEqGoals env .invariant (.inferenceVar tickX) (.placeholder u i) >>=
                 fun _ => pure (Lifetime.inferenceVar tickX))
                else pure (.placeholder u i)) s = (.ok r, s') := h
            by_cases hc : ui < u
            · rw [if_pos hc, UM.run_bind] at h
              replace h : (pushLifetimeEqGoals env .invariant
                  (.inferenceVar (s.table.newVariable ui).1) (.placeholder u i) >>=
                  fun _ => pure (Lifetime.inferenceVar (s.table.newVariable ui).1))
                  ⟨(s.table.newVariable ui).2, s.goals⟩ = (.ok r, s') := h
              rw [UM.run_bind, run_pushLifetimeEqGoals] at h
              obtain ⟨_, hs⟩ := UM.pure_ok h
              rw [← hs]
              exact Table.Pres.ofNewVariable s.table ui
            · rw [if_neg hc] at h
              obtain ⟨_, hs⟩ := UM.pure_ok h
              rw [← hs]
              exact Table.Pres.reflP _
        | inferenceVar w =>
            simp only [engine] at h
            rw [UM.run_get_bind] at h
            cases hp : s.table.probe w with
            | boundTo a =>
                rw [hp] at h
                cases a with
                | lifetime nl => exact ihLt v ui outer nl s r s' h
                | ty t => dsimp only at h; rw [UM.run_throw] at h; simp at h
                | konst c => dsimp only at h; rw [UM.run_throw] at h; simp at h
            | unbound wu =>
                rw [hp] at h
                dsimp only at h
                by_cases hw : ui < wu
                · rw [if_pos hw, UM.run_bind] at h
                  replace h : (pure (Lifetime.inferenceVar w) : UM Lifetime)
                      ⟨s.table.unifyVarValue w (.unbound ui), s.goals⟩ = (.ok r, s') := h
                  obtain ⟨_, hs⟩ := UM.pure_ok h
                  rw [← hs]
                  exact Table.Pres.ofUnifyUnbound ui hp
                · rw [if_neg hw] at h
                  obtain ⟨_, hs⟩ := UM.pure_ok h
                  rw [← hs]
                  exact Table.Pres.reflP _
        | boundVar d i =>
            replace h : (if d < outer then pure (Lifetime.boundVar d i)
                else (UM.throw .invariantViolation : UM Lifetime)) s = (.ok r, s') := h
            by_cases hc : d < outer
            · rw [if_pos hc] at h
              obtain ⟨_, hs⟩ := UM.pure_ok h
              rw [← hs]
              exact Table.Pres.reflP _
            · rw [if_neg hc, UM.run_throw] at h
              simp at h
      · intro v ui outer c s r s' h
        obtain ⟨t, val⟩ := c
        cases val with
        | inferenceVar w =>
            simp only [engine] at h
            rw [UM.bind_ok_iff] at h
            obtain ⟨t2, s1, h1, h⟩ := h
            have hpres1 := ihTy v ui outer t s t2 s1 h1
            rw [UM.run_get_bind] at h
            cases hp : s1.table.probe w with
            | boundTo a =>
                rw [hp] at h
                cases a with
                | konst nc => exact hpres1.transP (ihCnst v ui 0 nc s1 r s' h)
                | ty t3 => dsimp only at h; rw [UM.run_throw] at h; simp at h
                | lifetime l => dsimp only at h; rw [UM.run_throw] at h; simp at h
            | unbound wu =>
                rw [hp] at h
                dsimp only at h
                by_cases hu : s1.table.unioned w v = true
                · rw [if_pos hu, UM.run_throw] at h
                  simp at h
                · rw [if_neg hu] at h
                  by_cases hw : ui < wu
                  · rw [if_pos hw, UM.run_bind] at h
                    replace h : (pure (Cnst.mk t2 (.inferenceVar w)) : UM Cnst)
                        ⟨s1.table.unifyVarValue w (.unbound ui), s1.goals⟩ = (.ok r, s') := h
                    obtain ⟨_, hs⟩ := UM.pure_ok h
                    rw [← hs]
                    exact hpres1.transP (Table.Pres.ofUnifyUnbound ui hp)
                  · rw [if_neg hw] at h
                    obtain ⟨_, hs⟩ := UM.pure_ok h
                    rw [← hs]
                    exact hpres1
        | concrete e =>
            replace h : (engine db env fuel (.fTy v ui outer t) >>=
                fun t2 => pure (Cnst.mk t2 (.concrete e))) s = (.ok r, s') := h
            obtain ⟨a, h1, _⟩ := UM.map_ok h
            exact ihTy v ui outer t s a s' h1
        | placeholder u i =>
            replace h : (engine db env fuel (.fTy v ui outer t) >>=
                fun t2 => pure (Cnst.mk t2 (.placeholder u i))) s = (.ok r, s') := h
            obtain ⟨a, h1, _⟩ := UM.map_ok h
            exact ihTy v ui outer t s a s' h1
        | boundVar d i =>
            replace h : (engine db env fuel (.fTy v ui outer t) >>= fun t2 =>
                if d < outer then pure (Cnst.mk t2 (.boundVar d i))
                else (UM.throw .invariantViolation : UM Cnst)) s = (.ok r, s') := h
            rw [UM.bind_ok_iff] at h
            obtain ⟨t2, s1, h1, h⟩ := h
            by_cases hc : d < outer
            · rw [if_pos hc] at h
              obtain ⟨_, hs⟩ := UM.pure_ok h
              rw [← hs]
              exact ihTy v ui outer t s t2 s1 h1
            · rw [if_neg hc, UM.run_throw] at h
              simp at h
      · intro v ui outer x s r s' h
        cases x with
        | ty t =>
            replace h : (engine db env fuel (.fTy v ui outer t) >>=
                fun t2 => pure (GenericArg.ty t2)) s = (.ok r, s') := h
            obtain ⟨a, h1, _⟩ := UM.map_ok h
            exact ihTy v ui outer t s a s' h1
        | lifetime l =>
            replace h : (engine db env fuel (.fLifetime v ui outer l) >>=
                fun l2 => pure (GenericArg.lifetime l2)) s = (.ok r, s') := h
            obtain ⟨a, h1, _⟩ := UM.map_ok h
            exact ihLt v ui outer l s a s' h1
        | konst c =>
            replace h : (engine db env fuel (.fCnst v ui outer c) >>=
                fun c2 => pure (GenericArg.konst c2)) s = (.ok r, s') := h
            obtain ⟨a, h1, _⟩ := UM.map_ok h
            exact ihCnst v ui outer c s a s' h1
      · intro v ui outer xs s r s' h
        cases xs with
        | nil =>
            replace h : (pure Args.nil : UM Args) s = (.ok r, s') := h
            obtain ⟨_, hs⟩ := UM.pure_ok h
            rw [← hs]
            exact Table.Pres.reflP _
        | cons x t =>
            replace h : (engine db env fuel (.fArg v ui outer x) >>= fun h2 =>
                engine db env fuel (.fArgs v ui outer t) >>= fun t2 =>
                pure (Args.cons h2 t2)) s = (.ok r, s') := h
            rw [UM.bind_ok_iff] at h
            obtain ⟨h2, s1, h1, h⟩ := h
            obtain ⟨t2, h2', _⟩ := UM.map_ok h
            exact (ihArg v ui outer x s h2 s1 h1).transP (ihArgs v ui outer t s1 t2 s' h2')
      · intro v ui outer c s r s' h
        cases c with
        | implemented tid s2 =>
            replace h : (engine db env fuel (.fArgs v ui outer s2) >>=
                fun x => pure (WhereClause.implemented tid x)) s = (.ok r, s') := h
            obtain ⟨a, h1, _⟩ := UM.map_ok h
            exact ihArgs v ui outer s2 s a s' h1
        | aliasEq al t =>
            replace h : (engine db env fuel (.fAlias v ui outer al) >>= fun al2 =>
                engine db env fuel (.fTy v ui outer t) >>= fun t2 =>
                pure (WhereClause.aliasEq al2 t2)) s = (.ok r, s') := h
            rw [UM.bind_ok_iff] at h
            obtain ⟨al2, s1, h1, h⟩ := h
            obtain ⟨t2, h2, _⟩ := UM.map_ok h
            exact (ihAlias v ui outer al s al2 s1 h1).transP (ihTy v ui outer t s1 t2 s' h2)
        | typeOutlives t l =>
            replace h : (engine db env fuel (.fTy v ui outer t) >>= fun t2 =>
                engine db env fuel (.fLifetime v ui outer l) >>= fun l2 =>
                pure (WhereClause.typeOutlives t2 l2)) s = (.ok r, s') := h
            rw [UM.bind_ok_iff] at h
            obtain ⟨t2, s1, h1, h⟩ := h
            obtain ⟨l2, h2, _⟩ := UM.map_ok h
            exact (ihTy v ui outer t s t2 s1 h1).transP (ihLt v ui outer l s1 l2 s' h2)
        | lifetimeOutlives la lb =>
            replace h : (engine db env fuel (.fLifetime v ui outer la) >>= fun la2 =>
                engine db env fuel (.fLifetime v ui outer lb) >>= fun lb2 =>
                pure (WhereClause.lifetimeOutlives la2 lb2)) s = (.ok r, s') := h
            rw [UM.bind_ok_iff] at h
            obtain ⟨la2, s1, h1, h⟩ := h
            obtain ⟨lb2, h2, _⟩ := UM.map_ok h
            exact (ihLt v ui outer la s la2 s1 h1).transP (ihLt v ui outer lb s1 lb2 s' h2)
      · intro v ui outer cs s r s' h
        cases cs with
        | nil =>
            replace h : (pure QWClauses.nil : UM QWClauses) s = (.ok r, s') := h
            obtain ⟨_, hs⟩ := UM.pure_ok h
            rw [← hs]
            exact Table.Pres.reflP _
        | cons qc rest =>
            obtain ⟨kinds, c⟩ := qc
            replace h : (engine db env fuel (.fWC v ui (outer + 1) c) >>= fun c2 =>
                engine db env fuel (.fQWCs v ui outer rest) >>= fun rest2 =>
                pure (QWClauses.cons (QWClause.mk kinds c2) rest2)) s = (.ok r, s') := h
            rw [UM.bind_ok_iff] at h
            obtain ⟨c2, s1, h1, h⟩ := h
            obtain ⟨rest2, h2, _⟩ := UM.map_ok h
            exact (ihWC v ui (outer + 1) c s c2 s1 h1).transP (ihQWCs v ui outer rest s1 rest2 s' h2)

/-- A successful `OccursCheck` fold of any node implies the node holds
no occurrence (through the table) of the variable being checked: the
fold would have failed with `NoSolution` on any cycle. -/
theorem fold_no_occurrence (db : UDb) (env : Nat) : ∀ fuel : Nat,
    (∀ v ui outer t s r s',
       engine db env fuel (.fTy v ui outer t) s = (.ok r, s') →
         ¬ OccursIn s.table v (.ty t)) ∧
    (∀ v ui outer a s r s',
       engine db env fuel (.fAlias v ui outer a) s = (.ok r, s') →
         ¬ OccursIn s.table v (.aliasN a)) ∧
    (∀ v ui outer c s r s',
       engine db env fuel (.fCnst v ui outer c) s = (.ok r, s') →
         ¬ OccursIn s.table v (.cnst c)) ∧
    (∀ v ui outer x s r s',
       engine db env fuel (.fArg v ui outer x) s = (.ok r, s') →
         ¬ OccursIn s.table v (.arg x)) ∧
    (∀ v ui outer xs s r s',
       engine db env fuel (.fArgs v ui outer xs) s = (.ok r, s') →
         ¬ OccursIn s.table v (.args xs)) ∧
    (∀ v ui outer c s r s',
       engine db env fuel (.fWC v ui outer c) s = (.ok r, s') →
         ¬ OccursIn s.table v (.wc c)) ∧
    (∀ v ui outer cs s r s',
       engine db env fuel (.fQWCs v ui outer cs) s = (.ok r, s') →
         ¬ OccursIn s.table v (.qwcs cs)) := by
  intro fuel
  induction fuel with
  | zero =>
      refine ⟨?_, ?_, ?_, ?_, ?_, ?_, ?_⟩ <;>
        exact fun _ _ _ _ _ _ _ h => (engine_zero_not_ok db env h).elim
  | succ fuel ih =>
      obtain ⟨ihTy, ihAlias, ihCnst, ihArg, ihArgs, ihWC, ihQWCs⟩ := ih
      refine ⟨?_, ?_, ?_, ?_, ?_, ?_, ?_⟩
      · intro v ui outer t s r s' h
        cases t with
        | apply n s2 =>
            replace h : (engine db env fuel (.fArgs v ui outer s2) >>=
                fun x => pure (Ty.apply n x)) s = (.ok r, s') := h
            obtain ⟨a, h1, _⟩ := UM.map_ok h
            intro hocc
            cases hocc with
            | applyArgs hx => exact ihArgs v ui outer s2 s a s' h1 hx
        | placeholder u i => intro hocc; cases hocc
        | inferenceVar w kind =>
            simp only [engine] at h
            rw [UM.run_get_bind] at h
            cases hp : s.table.probe w with
            | boundTo a =>
                rw [hp] at h
                cases a with
                | ty nt =>
                    have hno := ihTy v ui 0 nt s r s' h
                    intro hocc
                    cases hocc with
                    | tyVarUnioned hu hb => simp [Table.boundVal, hp] at hb
                    | tyVarBound hb hocc' =>
                        have hbv : s.table.boundVal w = some (GenericArg.ty nt) := by
                          simp [Table.boundVal, hp]
                        rw [hbv] at hb
                        injection hb with hb'
                        subst hb'
                        cases hocc' with
                        | argTy h2 => exact hno h2
                | lifetime l => dsimp only at h; rw [UM.run_throw] at h; simp at h
                | konst c => dsimp only at h; rw [UM.run_throw] at h; simp at h
            | unbound wu =>
                rw [hp] at h
                dsimp only at h
                by_cases hu : s.table.unioned w v = true
                · rw [if_pos hu, UM.run_throw] at h
                  simp at h
                · rw [if_neg hu] at h
                  intro hocc
                  cases hocc with
                  | tyVarUnioned hu2 hb => exact hu hu2
                  | tyVarBound hb hocc' => simp [Table.boundVal, hp] at hb
        | dyn ks bs lt =>
            replace h : (engine db env fuel (.fQWCs v ui (outer + 1) bs) >>= fun bs2 =>
                engine db env fuel (.fLifetime v ui outer lt) >>= fun lt2 =>
                pure (Ty.dyn ks bs2 lt2)) s = (.ok r, s') := h
            rw [UM.bind_ok_iff] at h
            obtain ⟨bs2, s1, h1, _⟩ := h
            intro hocc
            cases hocc with
            | dynBounds hx => exact ihQWCs v ui (outer + 1) bs s bs2 s1 h1 hx
        | function nb abi sf vd s2 =>
            replace h : (engine db env fuel (.fArgs v ui (outer + 1) s2) >>=
                fun x => pure (Ty.function nb abi sf vd x)) s = (.ok r, s') := h
            obtain ⟨a, h1, _⟩ := UM.map_ok h
            intro hocc
            cases hocc with
            | fnArgs hx => exact ihArgs v ui (outer + 1) s2 s a s' h1 hx
        | «alias» a =>
            replace h : (engine db env fuel (.fAlias v ui outer a) >>=
                fun x => pure (Ty.alias x)) s = (.ok r, s') := h
            obtain ⟨a2, h1, _⟩ := UM.map_ok h
            intro hocc
            cases hocc with
            | tyAlias hx => exact ihAlias v ui outer a s a2 s' h1 hx
        | boundVar d i => intro hocc; cases hocc
      · intro v ui outer a s r s' h
        cases a with
        | projection aid s2 =>
            replace h : (engine db env fuel (.fArgs v ui outer s2) >>=
                fun x => pure (AliasT.projection aid x)) s = (.ok r, s') := h
            obtain ⟨a2, h1, _⟩ := UM.map_ok h
            intro hocc
            cases hocc with
            | projArgs hx => exact ihArgs v ui outer s2 s a2 s' h1 hx
        | opaq oid s2 =>
            replace h : (engine db env fuel (.fArgs v ui outer s2) >>=
                fun x => pure (AliasT.opaq oid x)) s = (.ok r, s') := h
            obtain ⟨a2, h1, _⟩ := UM.map_ok h
            intro hocc
            cases hocc with
            | opaqArgs hx => exact ihArgs v ui outer s2 s a2 s' h1 hx
      · intro v ui outer c s r s' h
        obtain ⟨t, val⟩ := c
        cases val with
        | inferenceVar w =>
            simp only [engine] at h
            rw [UM.bind_ok_iff] at h
            obtain ⟨t2, s1, h1, h⟩ := h
            have hnoT := ihTy v ui outer t s t2 s1 h1
            have hpres1 := (fold_pres db env fuel).1 v ui outer t s t2 s1 h1
            rw [UM.run_get_bind] at h
            cases hp : s1.table.probe w with
            | boundTo a =>
                rw [hp] at h
                cases a with
                | konst nc =>
                    have hnoC := ihCnst v ui 0 nc s1 r s' h
                    intro hocc
                    cases hocc with
                    | cnstTy hx => exact hnoT hx
                    | cnstVarUnioned hu hb =>
                        have hbn : s1.table.boundVal w = none := (hpres1.2 w).trans hb
                        simp [Table.boundVal, hp] at hbn
                    | cnstVarBound hb hocc' =>
                        have hbv : s1.table.boundVal w = some (GenericArg.konst nc) := by
                          simp [Table.boundVal, hp]
                        rw [hpres1.2 w, hb] at hbv
                        injection hbv with hb'
                        subst hb'
                        cases hocc' with
                        | argCnst h2 =>
                            exact hnoC (occursIn_preserved hpres1.1 hpres1.2 h2)
                | ty t3 => dsimp only at h; rw [UM.run_throw] at h; simp at h
                | lifetime l => dsimp only at h; rw [UM.run_throw] at h; simp at h
            | unbound wu =>
                rw [hp] at h
                dsimp only at h
                by_cases hu : s1.table.unioned w v = true
                · rw [if_pos hu, UM.run_throw] at h
                  simp at h
                · rw [if_neg hu] at h
                  intro hocc
                  cases hocc with
                  | cnstTy hx => exact hnoT hx
                  | cnstVarUnioned hu2 hb =>
                      exact hu ((unioned_congr hpres1.1 w v).trans hu2)
                  | cnstVarBound hb hocc' =>
                      have hbn : s1.table.boundVal w = none := by
                        simp [Table.boundVal, hp]
                      rw [hpres1.2 w, hb] at hbn
                      simp at hbn
        | concrete e =>
            replace h : (engine db env fuel (.fTy v ui outer t) >>=
                fun t2 => pure (Cnst.mk t2 (.concrete e))) s = (.ok r, s') := h
            obtain ⟨a, h1, _⟩ := UM.map_ok h
            intro hocc
            cases hocc with
            | cnstTy hx => exact ihTy v ui outer t s a s' h1 hx
        | placeholder u i =>
            replace h : (engine db env fuel (.fTy v ui outer t) >>=
                fun t2 => pure (Cnst.mk t2 (.placeholder u i))) s = (.ok r, s') := h
            obtain ⟨a, h1, _⟩ := UM.map_ok h
            intro hocc
            cases hocc with
            | cnstTy hx => exact ihTy v ui outer t s a s' h1 hx
        | boundVar d i =>
            replace h : (engine db env fuel (.fTy v ui outer t) >>= fun t2 =>
                if d < outer then pure (Cnst.mk t2 (.boundVar d i))
                else (UM.throw .invariantViolation : UM Cnst)) s = (.ok r, s') := h
            rw [UM.bind_ok_iff] at h
            obtain ⟨t2, s1, h1, _⟩ := h
            intro hocc
            cases hocc with
            | cnstTy hx => exact ihTy v ui outer t s t2 s1 h1 hx
      · intro v ui outer x s r s' h
        cases x with
        | ty t =>
            replace h : (engine db env fuel (.fTy v ui outer t) >>=
                fun t2 => pure (GenericArg.ty t2)) s = (.ok r, s') := h
            obtain ⟨a, h1, _⟩ := UM.map_ok h
            intro hocc
            cases hocc with
            | argTy hx => exact ihTy v ui outer t s a s' h1 hx
        | lifetime l => intro hocc; cases hocc
        | konst c =>
            replace h : (engine db env fuel (.fCnst v ui outer c) >>=
                fun c2 => pure (GenericArg.konst c2)) s = (.ok r, s') := h
            obtain ⟨a, h1, _⟩ := UM.map_ok h
            intro hocc
            cases hocc with
            | argCnst hx => exact ihCnst v ui outer c s a s' h1 hx
      · intro v ui outer xs s r s' h
        cases xs with
        | nil => intro hocc; cases hocc
        | cons x t =>
            replace h : (engine db env fuel (.fArg v ui outer x) >>= fun h2 =>
                engine db env fuel (.fArgs v ui outer t) >>= fun t2 =>
                pure (Args.cons h2 t2)) s = (.ok r, s') := h
            rw [UM.bind_ok_iff] at h
            obtain ⟨h2, s1, h1, h⟩ := h
            obtain ⟨t2, h2', _⟩ := UM.map_ok h
            intro hocc
            cases hocc with
            | argsHead hx => exact ihArg v ui outer x s h2 s1 h1 hx
            | argsTail hx =>
                have hpres1 := (fold_pres db env fuel).2.2.2.2.1 v ui outer x s h2 s1 h1
                exact ihArgs v ui outer t s1 t2 s' h2'
                  (occursIn_preserved hpres1.1 hpres1.2 hx)
      · intro v ui outer c s r s' h
        cases c with
        | implemented tid s2 =>
            replace h : (engine db env fuel (.fArgs v ui outer s2) >>=
                fun x => pure (WhereClause.implemented tid x)) s = (.ok r, s') := h
            obtain ⟨a, h1, _⟩ := UM.map_ok h
            intro hocc
            cases hocc with
            | wcImplArgs hx => exact ihArgs v ui outer s2 s a s' h1 hx
        | aliasEq al t =>
            replace h : (engine db env fuel (.fAlias v ui outer al) >>= fun al2 =>
                engine db env fuel (.fTy v ui outer t) >>= fun t2 =>
                pure (WhereClause.aliasEq al2 t2)) s = (.ok r, s') := h
            rw [UM.bind_ok_iff] at h
            obtain ⟨al2, s1, h1, h⟩ := h
            obtain ⟨t2, h2, _⟩ := UM.map_ok h
            intro hocc
            cases hocc with
            | wcAliasEqAlias hx => exact ihAlias v ui outer al s al2 s1 h1 hx
            | wcAliasEqTy hx =>
                have hpres1 := (fold_pres db env fuel).2.1 v ui outer al s al2 s1 h1
                exact ihTy v ui outer t s1 t2 s' h2
                  (occursIn_preserved hpres1.1 hpres1.2 hx)
        | typeOutlives t l =>
            replace h : (engine db env fuel (.fTy v ui outer t) >>= fun t2 =>
                engine db env fuel (.fLifetime v ui outer l) >>= fun l2 =>
                pure (WhereClause.typeOutlives t2 l2)) s = (.ok r, s') := h
            rw [UM.bind_ok_iff] at h
            obtain ⟨t2, s1, h1, _⟩ := h
            intro hocc
            cases hocc with
            | wcTypeOutlives hx => exact ihTy v ui outer t s t2 s1 h1 hx
        | lifetimeOutlives la lb => intro hocc; cases hocc
      · intro v ui outer cs s r s' h
        cases cs with
        | nil => intro hocc; cases hocc
        | cons qc rest =>
            obtain ⟨kinds, c⟩ := qc
            replace h : (engine db env fuel (.fWC v ui (outer + 1) c) >>= fun c2 =>
                engine db env fuel (.fQWCs v ui outer rest) >>= fun rest2 =>
                pure (QWClauses.cons (QWClause.mk kinds c2) rest2)) s = (.ok r, s') := h
            rw [UM.bind_ok_iff] at h
            obtain ⟨c2, s1, h1, h⟩ := h
            obtain ⟨rest2, h2, _⟩ := UM.map_ok h
            intro hocc
            cases hocc with
            | qwcsHead hx =>
                cases hx with
                | qwcClause hx' => exact ihWC v ui (outer + 1) c s c2 s1 h1 hx'
            | qwcsTail hx =>
                have hpres1 := (fold_pres db env fuel).2.2.2.2.2.2.1 v ui (outer + 1) c s c2 s1 h1
                exact ihQWCs v ui outer rest s1 rest2 s' h2
                  (occursIn_preserved hpres1.1 hpres1.2 hx)

/-- C3.  Occurs soundness: `relate_var_ty` never successfully binds an
inference variable `v` to a term that, after normalization of bound
variables through the table, contains a variable union-find-equal to
`v` — whenever such an occurrence exists, the relation fails (the
`OccursCheck` fold bails before the bind is performed). -/
theorem c3_occurs_soundness (db : UDb) (env : Nat) (fuel : Nat) (variance : Variance)
    (v : Nat) (ty : Ty) (s : UState)
    (hocc : OccursIn s.table v (.ty ty)) :
    ∃ e s2, relateVarTy db env fuel variance v ty s = (.error e, s2) := by
  cases hres : relateVarTy db env fuel variance v ty s with
  | mk res s2 =>
      cases res with
      | error e => exact ⟨e, s2, rfl⟩
      | ok r =>
          exfalso
          cases fuel with
          | zero => exact engine_zero_not_ok db env hres
          | succ fuel =>
              simp only [relateVarTy, engine] at hres
              rw [UM.run_get_bind, UM.bind_ok_iff] at hres
              obtain ⟨ty1, s1, h1, _⟩ := hres
              exact (fold_no_occurrence db env fuel).1 v s.table.maxU 0 ty s ty1 s1 h1 hocc

/-- A concrete run of the occurs-soundness theorem: unifying `?0` with
`Adt0<?0>` on a one-variable table fails. -/
theorem c3_witness :
    ∃ e s2, relateVarTy ⟨fun _ => []⟩ 0 5 .invariant 0
        (.apply (.adt 0) (.cons (.ty (.inferenceVar 0 .general)) .nil))
        ⟨⟨[0], [.unbound 0], 1⟩, []⟩ = (.error e, s2) :=
  c3_occurs_soundness ⟨fun _ => []⟩ 0 5 .invariant 0
    (.apply (.adt 0) (.cons (.ty (.inferenceVar 0 .general)) .nil))
    ⟨⟨[0], [.unbound 0], 1⟩, []⟩
    (.applyArgs (.argsHead (.argTy (.tyVarUnioned (by decide) (by decide)))))

/-- The `OccursCheck` fold bounds output type placeholders: every value
a successful fold returns has all its type placeholders in a universe
`≤` the fold's universe bound (`fold_free_placeholder_ty` errors on any
deeper placeholder). -/
theorem fold_ph (db : UDb) (env : Nat) : ∀ fuel : Nat,
    (∀ v ui outer t s r s',
       engine db env fuel (.fTy v ui outer t) s = (.ok r, s') → phBoundTy ui r = true) ∧
    (∀ v ui outer a s r s',
       engine db env fuel (.fAlias v ui outer a) s = (.ok r, s') → phBoundAlias ui r = true) ∧
    (∀ v ui outer c s r s',
       engine db env fuel (.fCnst v ui outer c) s = (.ok r, s') → phBoundCnst ui r = true) ∧
    (∀ v ui outer x s r s',
       engine db env fuel (.fArg v ui outer x) s = (.ok r, s') → phBoundArg ui r = true) ∧
    (∀ v ui outer xs s r s',
       engine db env fuel (.fArgs v ui outer xs) s = (.ok r, s') → phBoundArgs ui r = true) ∧
    (∀ v ui outer c s r s',
       engine db env fuel (.fWC v ui outer c) s = (.ok r, s') → phBoundWC ui r = true) ∧
    (∀ v ui outer cs s r s',
       engine db env fuel (.fQWCs v ui outer cs) s = (.ok r, s') → phBoundQWCs ui r = true) := by
  intro fuel
  induction fuel with
  | zero =>
      refine ⟨?_, ?_, ?_, ?_, ?_, ?_, ?_⟩ <;>
        exact fun _ _ _ _ _ _ _ h => (engine_zero_not_ok db env h).elim
  | succ fuel ih =>
      obtain ⟨ihTy, ihAlias, ihCnst, ihArg, ihArgs, ihWC, ihQWCs⟩ := ih
      refine ⟨?_, ?_, ?_, ?_, ?_, ?_, ?_⟩
      · intro v ui outer t s r s' h
        cases t with
        | apply n s2 =>
            replace h : (engine db env fuel (.fArgs v ui outer s2) >>=
                fun x => pure (Ty.apply n x)) s = (.ok r, s') := h
            obtain ⟨a, h1, hr⟩ := UM.map_ok h
            rw [hr]
            exact ihArgs v ui outer s2 s a s' h1
        | placeholder u i =>
            replace h : (if ui < u then (UM.throw .noSolution : UM Ty)
                else pure (.placeholder u i)) s = (.ok r, s') := h
            by_cases hc : ui < u
            · rw [if_pos hc, UM.run_throw] at h
              simp at h
            · rw [if_neg hc] at h
              obtain ⟨hv, _⟩ := UM.pure_ok h
              rw [← hv]
              simp [phBoundTy]
              exact Nat.le_of_not_lt hc
        | inferenceVar w kind =>
            simp only [engine] at h
            rw [UM.run_get_bind] at h
            cases hp : s.table.probe w with
            | boundTo a =>
                rw [hp] at h
                cases a with
                | ty nt => exact ihTy v ui 0 nt s r s' h
                | lifetime l => dsimp only at h; rw [UM.run_throw] at h; simp at h
                | konst c => dsimp only at h; rw [UM.run_throw] at h; simp at h
            | unbound wu =>
                rw [hp] at h
                dsimp only at h
                by_cases hu : s.table.unioned w v = true
                · rw [if_pos hu, UM.run_throw] at h
                  simp at h
                · rw [if_neg hu] at h
                  by_cases hw : ui < wu
                  · rw [if_pos hw, UM.run_bind] at h
                    replace h : (pure (Ty.inferenceVar w kind) : UM Ty)
                        ⟨s.table.unifyVarValue w (.unbound ui), s.goals⟩ = (.ok r, s') := h
                    obtain ⟨hv, _⟩ := UM.pure_ok h
                    rw [← hv]
                    rfl
                  · rw [if_neg hw] at h
                    obtain ⟨hv, _⟩ := UM.pure_ok h
                    rw [← hv]
                    rfl
        | dyn ks bs lt =>
            replace h : (engine db env fuel (.fQWCs v ui (outer + 1) bs) >>= fun bs2 =>
                engine db env fuel (.fLifetime v ui outer lt) >>= fun lt2 =>
                pure (Ty.dyn ks bs2 lt2)) s = (.ok r, s') := h
            rw [UM.bind_ok_iff] at h
            obtain ⟨bs2, s1, h1, h⟩ := h
            obtain ⟨lt2, h2, hr⟩ := UM.map_ok h
            rw [hr]
            exact ihQWCs v ui (outer + 1) bs s bs2 s1 h1
        | function nb abi sf vd s2 =>
            replace h : (engine db env fuel (.fArgs v ui (outer + 1) s2) >>=
                fun x => pure (Ty.function nb abi sf vd x)) s = (.ok r, s') := h
            obtain ⟨a, h1, hr⟩ := UM.map_ok h
            rw [hr]
            exact ihArgs v ui (outer + 1) s2 s a s' h1
        | «alias» a =>
            replace h : (engine db env fuel (.fAlias v ui outer a) >>=
                fun x => pure (Ty.alias x)) s = (.ok r, s') := h
            obtain ⟨a2, h1, hr⟩ := UM.map_ok h
            rw [hr]
            exact ihAlias v ui outer a s a2 s' h1
        | boundVar d i =>
            replace h : (if d < outer then pure (Ty.boundVar d i)
                else (UM.throw .invariantViolation : UM Ty)) s = (.ok r, s') := h
            by_cases hc : d < outer
            · rw [if_pos hc] at h
              obtain ⟨hv, _⟩ := UM.pure_ok h
              rw [← hv]
              rfl
            · rw [if_neg hc, UM.run_throw] at h
              simp at h
      · intro v ui outer a s r s' h
        cases a with
        | projection aid s2 =>
            replace h : (engine db env fuel (.fArgs v ui outer s2) >>=
                fun x => pure (AliasT.projection aid x)) s = (.ok r, s') := h
            obtain ⟨a2, h1, hr⟩ := UM.map_ok h
            rw [hr]
            exact ihArgs v ui outer s2 s a2 s' h1
        | opaq oid s2 =>
            replace h : (engine db env fuel (.fArgs v ui outer s2) >>=
                fun x => pure (AliasT.opaq oid x)) s = (.ok r, s') := h
            obtain ⟨a2, h1, hr⟩ := UM.map_ok h
            rw [hr]
            exact ihArgs v ui outer s2 s a2 s' h1
      · intro v ui outer c s r s' h
        obtain ⟨t, val⟩ := c
        cases val with
        | inferenceVar w =>
            simp only [engine] at h
            rw [UM.bind_ok_iff] at h
            obtain ⟨t2, s1, h1, h⟩ := h
            rw [UM.run_get_bind] at h
            cases hp : s1.table.probe w with
            | boundTo a =>
                rw [hp] at h
                cases a with
                | konst nc => exact ihCnst v ui 0 nc s1 r s' h
                | ty t3 => dsimp only at h; rw [UM.run_throw] at h; simp at h
                | lifetime l => dsimp only at h; rw [UM.run_throw] at h; simp at h
            | unbound wu =>
                rw [hp] at h
                dsimp only at h
                by_cases hu : s1.table.unioned w v = true
                · rw [if_pos hu, UM.run_throw] at h
                  simp at h
                · rw [if_neg hu] at h
                  by_cases hw : ui < wu
                  · rw [if_pos hw, UM.run_bind] at h
                    replace h : (pure (Cnst.mk t2 (.inferenceVar w)) : UM Cnst)
                        ⟨s1.table.unifyVarValue w (.unbound ui), s1.goals⟩ = (.ok r, s') := h
                    obtain ⟨hv, _⟩ := UM.pure_ok h
                    rw [← hv]
                    exact ihTy v ui outer t s t2 s1 h1
                  · rw [if_neg hw] at h
                    obtain ⟨hv, _⟩ := UM.pure_ok h
                    rw [← hv]
                    exact ihTy v ui outer t s t2 s1 h1
        | concrete e =>
            replace h : (engine db env fuel (.fTy v ui outer t) >>=
                fun t2 => pure (Cnst.mk t2 (.concrete e))) s = (.ok r, s') := h
            obtain ⟨a, h1, hr⟩ := UM.map_ok h
            rw [hr]
            exact ihTy v ui outer t s a s' h1
        | placeholder u i =>
            replace h : (engine db env fuel (.fTy v ui outer t) >>=
                fun t2 => pure (Cnst.mk t2 (.placeholder u i))) s = (.ok r, s') := h
            obtain ⟨a, h1, hr⟩ := UM.map_ok h
            rw [hr]
            exact ihTy v ui outer t s a s' h1
        | boundVar d i =>
            replace h : (engine db env fuel (.fTy v ui outer t) >>= fun t2 =>
                if d < outer then pure (Cnst.mk t2 (.boundVar d i))
                else (UM.throw .invariantViolation : UM Cnst)) s = (.ok r, s') := h
            rw [UM.bind_ok_iff] at h
            obtain ⟨t2, s1, h1, h⟩ := h
            by_cases hc : d < outer
            · rw [if_pos hc] at h
              obtain ⟨hv, _⟩ := UM.pure_ok h
              rw [← hv]
              exact ihTy v ui outer t s t2 s1 h1
            · rw [if_neg hc, UM.run_throw] at h
              simp at h
      · intro v ui outer x s r s' h
        cases x with
        | ty t =>
            replace h : (engine db env fuel (.fTy v ui outer t) >>=
                fun t2 => pure (GenericArg.ty t2)) s = (.ok r, s') := h
            obtain ⟨a, h1, hr⟩ := UM.map_ok h
            rw [hr]
            exact ihTy v ui outer t s a s' h1
        | lifetime l =>
            replace h : (engine db env fuel (.fLifetime v ui outer l) >>=
                fun l2 => pure (GenericArg.lifetime l2)) s = (.ok r, s') := h
            obtain ⟨a, h1, hr⟩ := UM.map_ok h
            rw [hr]
            rfl
        | konst c =>
            replace h : (engine db env fuel (.fCnst v ui outer c) >>=
                fun c2 => pure (GenericArg.konst c2)) s = (.ok r, s') := h
            obtain ⟨a, h1, hr⟩ := UM.map_ok h
            rw [hr]
            exact ihCnst v ui outer c s a s' h1
      · intro v ui outer xs s r s' h
        cases xs with
        | nil =>
            replace h : (pure Args.nil : UM Args) s = (.ok r, s') := h
            obtain ⟨hv, _⟩ := UM.pure_ok h
            rw [← hv]
            rfl
        | cons x t =>
            replace h : (engine db env fuel (.fArg v ui outer x) >>= fun h2 =>
                engine db env fuel (.fArgs v ui outer t) >>= fun t2 =>
                pure (Args.cons h2 t2)) s = (.ok r, s') := h
            rw [UM.bind_ok_iff] at h
            obtain ⟨h2, s1, h1, h⟩ := h
            obtain ⟨t2, h2', hr⟩ := UM.map_ok h
            rw [hr]
            show (phBoundArg ui h2 && phBoundArgs ui t2) = true
            rw [Bool.and_eq_true]
            exact ⟨ihArg v ui outer x s h2 s1 h1, ihArgs v ui outer t s1 t2 s' h2'⟩
      · intro v ui outer c s r s' h
        cases c with
        | implemented tid s2 =>
            replace h : (engine db env fuel (.fArgs v ui outer s2) >>=
                fun x => pure (WhereClause.implemented tid x)) s = (.ok r, s') := h
            obtain ⟨a, h1, hr⟩ := UM.map_ok h
            rw [hr]
            exact ihArgs v ui outer s2 s a s' h1
        | aliasEq al t =>
            replace h : (engine db env fuel (.fAlias v ui outer al) >>= fun al2 =>
                engine db env fuel (.fTy v ui outer t) >>= fun t2 =>
                pure (WhereClause.aliasEq al2 t2)) s = (.ok r, s') := h
            rw [UM.bind_ok_iff] at h
            obtain ⟨al2, s1, h1, h⟩ := h
            obtain ⟨t2, h2, hr⟩ := UM.map_ok h
            rw [hr]
            show (phBoundAlias ui al2 && phBoundTy ui t2) = true
            rw [Bool.and_eq_true]
            exact ⟨ihAlias v ui outer al s al2 s1 h1, ihTy v ui outer t s1 t2 s' h2⟩
        | typeOutlives t l =>
            replace h : (engine db env fuel (.fTy v ui outer t) >>= fun t2 =>
                engine db env fuel (.fLifetime v ui outer l) >>= fun l2 =>
                pure (WhereClause.typeOutlives t2 l2)) s = (.ok r, s') := h
            rw [UM.bind_ok_iff] at h
            obtain ⟨t2, s1, h1, h⟩ := h
            obtain ⟨l2, h2, hr⟩ := UM.map_ok h
            rw [hr]
            exact ihTy v ui outer t s t2 s1 h1
        | lifetimeOutlives la lb =>
            replace h : (engine db env fuel (.fLifetime v ui outer la) >>= fun la2 =>
                engine db env fuel (.fLifetime v ui outer lb) >>= fun lb2 =>
                pure (WhereClause.lifetimeOutlives la2 lb2)) s = (.ok r, s') := h
            rw [UM.bind_ok_iff] at h
            obtain ⟨la2, s1, h1, h⟩ := h
            obtain ⟨lb2, h2, hr⟩ := UM.map_ok h
            rw [hr]
            rfl
      · intro v ui outer cs s r s' h
        cases cs with
        | nil =>
            replace h : (pure QWClauses.nil : UM QWClauses) s = (.ok r, s') := h
            obtain ⟨hv, _⟩ := UM.pure_ok h
            rw [← hv]
            rfl
        | cons qc rest =>
            obtain ⟨kinds, c⟩ := qc
            replace h : (engine db env fuel (.fWC v ui (outer + 1) c) >>= fun c2 =>
                engine db env fuel (.fQWCs v ui outer rest) >>= fun rest2 =>
                pure (QWClauses.cons (QWClause.mk kinds c2) rest2)) s = (.ok r, s') := h
            rw [UM.bind_ok_iff] at h
            obtain ⟨c2, s1, h1, h⟩ := h
            obtain ⟨rest2, h2, hr⟩ := UM.map_ok h
            rw [hr]
            show (phBoundQWC ui (QWClause.mk kinds c2) && phBoundQWCs ui rest2) = true
            rw [Bool.and_eq_true]
            exact ⟨ihWC v ui (outer + 1) c s c2 s1 h1, ihQWCs v ui outer rest s1 rest2 s' h2⟩

/-- If capturing a `NoSolution` failure yields `some`, the underlying
computation succeeded with that value. -/
theorem UM.captureNoSolution_ok_some {α : Type} {m : UM α} {s s' : UState} {a : α}
    (h : UM.captureNoSolution m s = (.ok (some a), s')) : m s = (.ok a, s') := by
  unfold UM.captureNoSolution at h
  cases hm : m s with
  | mk res st =>
      rw [hm] at h
      cases res with
      | ok b =>
          dsimp only at h
          rw [Prod.mk.injEq] at h
          obtain ⟨h1, h2⟩ := h
          rw [Option.some.inj (Except.ok.inj h1), h2]
      | error e =>
          cases e <;> dsimp only at h <;> simp at h

/-- Generalization replaces arguments by fresh inference variables and
keeps only declared const types and failed clauses: every type
placeholder of its output already occurs in its input, so any universe
bound on the input carries to the output. -/
theorem gen_ph (db : UDb) (env : Nat) : ∀ fuel : Nat,
    (∀ variance x ui s x2 s',
       engine db env fuel (.genVar variance x ui) s = (.ok x2, s') →
         ∀ U, phBoundArg U x = true → phBoundArg U x2 = true) ∧
    (∀ variance xs ui s xs2 s',
       engine db env fuel (.genSubst variance xs ui) s = (.ok xs2, s') →
         ∀ U, phBoundArgs U xs = true → phBoundArgs U xs2 = true) ∧
    (∀ variance xs ui s xs2 s',
       engine db env fuel (.genSubstSkip variance xs ui) s = (.ok xs2, s') →
         ∀ U, phBoundArgs U xs = true → phBoundArgs U xs2 = true) ∧
    (∀ variance cs ui s p s',
       engine db env fuel (.genDyn variance cs ui) s = (.ok p, s') →
         ∀ U, phBoundQWCs U cs = true → phBoundQWCs U p.1 = true) := by
  intro fuel
  induction fuel with
  | zero =>
      refine ⟨?_, ?_, ?_, ?_⟩ <;>
        exact fun _ _ _ _ _ _ h => (engine_zero_not_ok db env h).elim
  | succ fuel ih =>
      obtain ⟨ihVar, ihSubst, ihSkip, ihDyn⟩ := ih
      refine ⟨?_, ?_, ?_, ?_⟩
      · intro variance x ui s x2 s' h
        cases x with
        | ty oldTy =>
            simp only [engine] at h
            rw [UM.bind_ok_iff] at h
            obtain ⟨ev, sA, hA, h⟩ := h
            obtain ⟨a, h1, hr⟩ := UM.map_ok h
            intro U hx
            rw [hr]
            rfl
        | lifetime oldLt =>
            simp only [engine] at h
            rw [UM.bind_ok_iff] at h
            obtain ⟨ev, sA, hA, h⟩ := h
            obtain ⟨a, h1, hr⟩ := UM.map_ok h
            intro U hx
            rw [hr]
            rfl
        | konst oldC =>
            cases oldC with
            | mk t val =>
                simp only [engine] at h
                rw [UM.bind_ok_iff] at h
                obtain ⟨ev, sA, hA, h⟩ := h
                obtain ⟨a, h1, hr⟩ := UM.map_ok h
                intro U hx
                rw [hr]
                exact hx
      · intro variance xs ui s xs2 s' h
        cases xs with
        | nil =>
            replace h : (pure Args.nil : UM Args) s = (.ok xs2, s') := h
            obtain ⟨hv, _⟩ := UM.pure_ok h
            intro U hx
            rw [← hv]
            rfl
        | cons x rest =>
            replace h : (engine db env fuel (.genVar variance x ui) >>= fun xg =>
                engine db env fuel (.genSubst variance rest ui) >>= fun restg =>
                pure (Args.cons xg restg)) s = (.ok xs2, s') := h
            rw [UM.bind_ok_iff] at h
            obtain ⟨xg, s1, h1, h⟩ := h
            obtain ⟨restg, h2, hr⟩ := UM.map_ok h
            intro U hx
            replace hx : (phBoundArg U x && phBoundArgs U rest) = true := hx
            rw [Bool.and_eq_true] at hx
            rw [hr]
            show (phBoundArg U xg && phBoundArgs U restg) = true
            rw [Bool.and_eq_true]
            exact ⟨ihVar variance x ui s xg s1 h1 U hx.1,
                   ihSubst variance rest ui s1 restg s' h2 U hx.2⟩
      · intro variance xs ui s xs2 s' h
        cases xs with
        | nil =>
            replace h : (pure Args.nil : UM Args) s = (.ok xs2, s') := h
            obtain ⟨hv, _⟩ := UM.pure_ok h
            intro U hx
            rw [← hv]
            rfl
        | cons x rest =>
            replace h : (engine db env fuel (.genSubst variance rest ui) >>= fun restg =>
                pure (Args.cons x restg)) s = (.ok xs2, s') := h
            obtain ⟨restg, h2, hr⟩ := UM.map_ok h
            intro U hx
            replace hx : (phBoundArg U x && phBoundArgs U rest) = true := hx
            rw [Bool.and_eq_true] at hx
            rw [hr]
            show (phBoundArg U x && phBoundArgs U restg) = true
            rw [Bool.and_eq_true]
            exact ⟨hx.1, ihSubst variance rest ui s restg s' h2 U hx.2⟩
      · intro variance cs ui s p s' h
        cases cs with
        | nil =>
            replace h : (pure (QWClauses.nil, (none : Option Err)) :
                UM (QWClauses × Option Err)) s = (.ok p, s') := h
            obtain ⟨hv, _⟩ := UM.pure_ok h
            intro U hx
            rw [← hv]
            rfl
        | cons qc rest =>
            cases qc with
            | mk kinds clause =>
                cases clause with
                | implemented tid subst =>
                    simp only [engine] at h
                    rw [UM.bind_ok_iff] at h
                    obtain ⟨ce, s1, hce, h⟩ := h
                    obtain ⟨re, hre, hp⟩ := UM.map_ok h
                    rw [UM.bind_ok_iff] at hce
                    obtain ⟨r, s0, hcap, hmatch⟩ := hce
                    intro U hx
                    replace hx : (phBoundArgs U subst && phBoundQWCs U rest) = true := hx
                    rw [Bool.and_eq_true] at hx
                    have hre1 := ihDyn variance rest ui s1 re s' hre U hx.2
                    rw [hp]
                    show (phBoundQWC U ce.1 && phBoundQWCs U re.1) = true
                    rw [Bool.and_eq_true]
                    refine ⟨?_, hre1⟩
                    cases r with
                    | some subst2 =>
                        dsimp only at hmatch
                        obtain ⟨hce', _⟩ := UM.pure_ok hmatch
                        have hsub := UM.captureNoSolution_ok_some hcap
                        have hb := ihSkip variance subst ui s subst2 s0 hsub U hx.1
                        rw [← hce']
                        exact hb
                    | none =>
                        dsimp only at hmatch
                        obtain ⟨hce', _⟩ := UM.pure_ok hmatch
                        rw [← hce']
                        exact hx.1
                | aliasEq al ty0 =>
                    cases al with
                    | projection aid subst =>
                        simp only [engine] at h
                        rw [UM.bind_ok_iff] at h
                        obtain ⟨ce, s1, hce, h⟩ := h
                        obtain ⟨re, hre, hp⟩ := UM.map_ok h
                        rw [UM.bind_ok_iff] at hce
                        obtain ⟨r, s0, hcap, hmatch⟩ := hce
                        intro U hx
                        replace hx : ((phBoundArgs U subst && phBoundTy U ty0) &&
                            phBoundQWCs U rest) = true := hx
                        rw [Bool.and_eq_true, Bool.and_eq_true] at hx
                        have hre1 := ihDyn variance rest ui s1 re s' hre U hx.2
                        rw [hp]
                        show (phBoundQWC U ce.1 && phBoundQWCs U re.1) = true
                        rw [Bool.and_eq_true]
                        refine ⟨?_, hre1⟩
                        cases r with
                        | some subst2 =>
                            dsimp only at hmatch
                            rw [UM.bind_ok_iff] at hmatch
                            obtain ⟨tv, sB, hB, hmatch⟩ := hmatch
                            obtain ⟨hce', _⟩ := UM.pure_ok hmatch
                            have hsub := UM.captureNoSolution_ok_some hcap
                            have hb := ihSubst variance subst ui s subst2 s0 hsub U hx.1.1
                            rw [← hce']
                            show (phBoundArgs U subst2 && true) = true
                            rw [Bool.and_true]
                            exact hb
                        | none =>
                            dsimp only at hmatch
                            obtain ⟨hce', _⟩ := UM.pure_ok hmatch
                            rw [← hce']
                            show (phBoundArgs U subst && phBoundTy U ty0) = true
                            rw [Bool.and_eq_true]
                            exact hx.1
                    | opaq oid subst =>
                        simp only [engine] at h
                        rw [UM.bind_ok_iff] at h
                        obtain ⟨ce, s1, hce, h⟩ := h
                        obtain ⟨re, hre, hp⟩ := UM.map_ok h
                        rw [UM.bind_ok_iff] at hce
                        obtain ⟨r, s0, hcap, hmatch⟩ := hce
                        intro U hx
                        replace hx : ((phBoundArgs U subst && phBoundTy U ty0) &&
                            phBoundQWCs U rest) = true := hx
                        rw [Bool.and_eq_true, Bool.and_eq_true] at hx
                        have hre1 := ihDyn variance rest ui s1 re s' hre U hx.2
                        rw [hp]
                        show (phBoundQWC U ce.1 && phBoundQWCs U re.1) = true
                        rw [Bool.and_eq_true]
                        refine ⟨?_, hre1⟩
                        cases r with
                        | some subst2 =>
                            dsimp only at hmatch
                            rw [UM.bind_ok_iff] at hmatch
                            obtain ⟨tv, sB, hB, hmatch⟩ := hmatch
                            obtain ⟨hce', _⟩ := UM.pure_ok hmatch
                            have hsub := UM.captureNoSolution_ok_some hcap
                            have hb := ihSubst variance subst ui s subst2 s0 hsub U hx.1.1
                            rw [← hce']
                            show (phBoundArgs U subst2 && true) = true
                            rw [Bool.and_true]
                            exact hb
                        | none =>
                            dsimp only at hmatch
                            obtain ⟨hce', _⟩ := UM.pure_ok hmatch
                            rw [← hce']
                            show (phBoundArgs U subst && phBoundTy U ty0) = true
                            rw [Bool.and_eq_true]
                            exact hx.1
                | typeOutlives ty0 l0 =>
                    simp only [engine] at h
                    rw [UM.bind_ok_iff] at h
                    obtain ⟨ce, s1, hce, h⟩ := h
                    obtain ⟨re, hre, hp⟩ := UM.map_ok h
                    rw [UM.bind_ok_iff] at hce
                    obtain ⟨lv, sA, hA, hce⟩ := hce
                    rw [UM.bind_ok_iff] at hce
                    obtain ⟨tv, sB, hB, hce⟩ := hce
                    obtain ⟨hce', _⟩ := UM.pure_ok hce
                    intro U hx
                    replace hx : (phBoundTy U ty0 && phBoundQWCs U rest) = true := hx
                    rw [Bool.and_eq_true] at hx
                    have hre1 := ihDyn variance rest ui s1 re s' hre U hx.2
                    rw [hp]
                    show (phBoundQWC U ce.1 && phBoundQWCs U re.1) = true
                    rw [Bool.and_eq_true]
                    refine ⟨?_, hre1⟩
                    rw [← hce']
                    rfl
                | lifetimeOutlives la lb =>
                    simp only [engine] at h
                    rw [UM.bind_ok_iff] at h
                    obtain ⟨ce, s1, hce, h⟩ := h
                    rw [UM.run_throw] at hce
                    simp at hce

/-- C1 counterexample to the claim as stated: on a table whose max
universe is 1, `relate_var_ty` successfully binds variable 0 — whose
own universe is 0 — to the placeholder of universe 1, so the bound
term's placeholder universe exceeds the variable's universe. -/
theorem c1_counterexample :
    relateVarTy ⟨fun _ => []⟩ 0 2 .invariant 0 (.placeholder 1 0)
        ⟨⟨[0], [.unbound 0], 1⟩, []⟩ =
      (.ok (), ⟨⟨[0], [.boundTo (.ty (.placeholder 1 0))], 1⟩, []⟩) ∧
    Table.universeOfUnboundVar ⟨[0], [.unbound 0], 1⟩ 0 = some 0 ∧
    phBoundTy 0 (.placeholder 1 0) = false := by
  refine ⟨by decide, by decide, by decide⟩

/-- C1 (corrected).  Scope safety of binds: a successful
`relate_var_ty` stores for `v` a generalized term every type
placeholder of which has universe `≤` the table's `max_universe` at
entry — the bound the code actually enforces (`unify.rs` line 436 uses
`self.unifier.table.max_universe`, not `v`'s own universe). -/
theorem c1_scope_safety (db : UDb) (env : Nat) (fuel : Nat) (variance : Variance)
    (v : Nat) (ty : Ty) (s s' : UState)
    (h : relateVarTy db env (fuel + 1) variance v ty s = (.ok (), s')) :
    ∃ gen t1, s'.table = Table.unifyVarValue t1 v (.boundTo (.ty gen)) ∧
      phBoundTy s.table.maxU gen = true := by
  simp only [relateVarTy, engine] at h
  rw [UM.run_get_bind, UM.bind_ok_iff] at h
  obtain ⟨ty1, s1, h1, h⟩ := h
  have hph1 := (fold_ph db env fuel).1 v s.table.maxU 0 ty s ty1 s1 h1
  rw [UM.run_get_bind] at h
  cases ty1 with
  | apply name subst =>
      dsimp only at h
      rw [UM.bind_ok_iff] at h
      obtain ⟨subst2, s2, hsub, hun⟩ := h
      rw [UM.bind_ok_iff] at hun
      obtain ⟨gen, s3, hpure, hun⟩ := hun
      obtain ⟨hgeq, hseq⟩ := UM.pure_ok hpure
      have hph2 := (gen_ph db env fuel).2.1 variance subst s1.table.maxU s1 subst2 s2 hsub
        s.table.maxU hph1
      replace hun : ((Except.ok (),
          { s3 with table := s3.table.unifyVarValue v (.boundTo (.ty gen)) }) :
          Except Err Unit × UState) = (.ok (), s') := hun
      injection hun with hfst hs'
      refine ⟨gen, s3.table, ?_, ?_⟩
      · rw [← hs']
      · rw [← hgeq]
        exact hph2
  | function nb abi sf vd subst =>
      dsimp only at h
      rw [UM.bind_ok_iff] at h
      obtain ⟨subst2, s2, hsub, hun⟩ := h
      rw [UM.bind_ok_iff] at hun
      obtain ⟨gen, s3, hpure, hun⟩ := hun
      obtain ⟨hgeq, hseq⟩ := UM.pure_ok hpure
      have hph2 := (gen_ph db env fuel).2.1 variance subst s1.table.maxU s1 subst2 s2 hsub
        s.table.maxU hph1
      replace hun : ((Except.ok (),
          { s3 with table := s3.table.unifyVarValue v (.boundTo (.ty gen)) }) :
          Except Err Unit × UState) = (.ok (), s') := hun
      injection hun with hfst hs'
      refine ⟨gen, s3.table, ?_, ?_⟩
      · rw [← hs']
      · rw [← hgeq]
        exact hph2
  | placeholder u i =>
      dsimp only at h
      rw [UM.bind_ok_iff] at h
      obtain ⟨gen, s2, hgen, hun⟩ := h
      obtain ⟨hgeq, hseq⟩ := UM.pure_ok hgen
      replace hun : ((Except.ok (),
          { s2 with table := s2.table.unifyVarValue v (.boundTo (.ty gen)) }) :
          Except Err Unit × UState) = (.ok (), s') := hun
      injection hun with hfst hs'
      refine ⟨gen, s2.table, ?_, ?_⟩
      · rw [← hs']
      · rw [← hgeq]
        exact hph1
  | boundVar d i =>
      dsimp only at h
      rw [UM.bind_ok_iff] at h
      obtain ⟨gen, s2, hgen, hun⟩ := h
      obtain ⟨hgeq, hseq⟩ := UM.pure_ok hgen
      replace hun : ((Except.ok (),
          { s2 with table := s2.table.unifyVarValue v (.boundTo (.ty gen)) }) :
          Except Err Unit × UState) = (.ok (), s') := hun
      injection hun with hfst hs'
      refine ⟨gen, s2.table, ?_, ?_⟩
      · rw [← hs']
      · rw [← hgeq]
        rfl
  | «alias» a =>
      dsimp only at h
      rw [UM.bind_ok_iff] at h
      obtain ⟨gen, s2, hgen, _⟩ := h
      rw [UM.run_throw] at hgen
      simp at hgen
  | inferenceVar w k =>
      dsimp only at h
      rw [UM.bind_ok_iff] at h
      obtain ⟨gen, s2, hgen, _⟩ := h
      rw [UM.run_throw] at hgen
      simp at hgen
  | dyn ks bounds lt0 =>
      dsimp only at h
      rw [UM.bind_ok_iff] at h
      obtain ⟨lv, sA, hA, h⟩ := h
      rw [UM.bind_ok_iff] at h
      obtain ⟨p, sB, hdyn, h⟩ := h
      have hph2 := (gen_ph db env fuel).2.2.2 variance bounds s1.table.maxU sA p sB hdyn
        s.table.maxU hph1
      obtain ⟨bounds2, errOpt⟩ := p
      dsimp only at h
      cases errOpt with
      | some e =>
          rw [UM.bind_ok_iff] at h
          obtain ⟨gen, s2, hgen, _⟩ := h
          rw [UM.run_throw] at hgen
          simp at hgen
      | none =>
          rw [UM.bind_ok_iff] at h
          obtain ⟨gen, s2, hpure, hun⟩ := h
          obtain ⟨hgeq, hseq⟩ := UM.pure_ok hpure
          replace hun : ((Except.ok (),
              { s2 with table := s2.table.unifyVarValue v (.boundTo (.ty gen)) }) :
              Except Err Unit × UState) = (.ok (), s') := hun
          injection hun with hfst hs'
          refine ⟨gen, s2.table, ?_, ?_⟩
          · rw [← hs']
          · rw [← hgeq]
            exact hph2

/-- A concrete run of the corrected scope-safety theorem: the
successful bind of variable 0 to a placeholder of universe 1 stores a
term bounded by the table's max universe 1. -/
theorem c1_witness :
    ∃ gen t1,
      (⟨[0], [.boundTo (.ty (.placeholder 1 0))], 1⟩ : Table) =
        Table.unifyVarValue t1 0 (.boundTo (.ty gen)) ∧
      phBoundTy 1 gen = true :=
  c1_scope_safety ⟨fun _ => []⟩ 0 1 .invariant 0 (.placeholder 1 0)
    ⟨⟨[0], [.unbound 0], 1⟩, []⟩ ⟨⟨[0], [.boundTo (.ty (.placeholder 1 0))], 1⟩, []⟩
    (by decide)

/-- A successful shallow normalization returns a term stored in the
table's `values` vector. -/
theorem ChalkRust.normalizeShallow_mem_values {t : ChalkRust.OldTable}
    {x u : ChalkRust.OldTy} (h : ChalkRust.normalizeShallow t x = some u) :
    u ∈ t.values := by
  unfold ChalkRust.normalizeShallow at h
  cases hx : x.inferenceVar? with
  | none => rw [hx] at h; simp [Option.bind] at h
  | some v =>
      rw [hx] at h
      simp only [Option.bind] at h
      cases hp : t.probe v with
      | unbound ui => rw [hp] at h; simp at h
      | bound valIdx =>
          rw [hp] at h
          exact List.get?_mem h

/-- C9.  The claim as stated is false: `normalize_shallow` returns the
stored value of a bound variable without renormalizing it, so on a
table whose variable 0 is bound to the stored term `Var(1)` while
variable 1 is bound to the stored term `Apply`, one application maps
`Var(0)` to `Var(1)` but a second application moves on to `Apply`. -/
theorem c9_counterexample :
    ChalkRust.normalizeShallowTotal
        ⟨[0, 1], [.bound 0, .bound 1], [.var 1, .apply 7 .nil]⟩
        (ChalkRust.normalizeShallowTotal
          ⟨[0, 1], [.bound 0, .bound 1], [.var 1, .apply 7 .nil]⟩ (.var 0)) ≠
      ChalkRust.normalizeShallowTotal
        ⟨[0, 1], [.bound 0, .bound 1], [.var 1, .apply 7 .nil]⟩ (.var 0) := by
  decide

/-- C9 (amended).  On every inference-table state whose stored values
are themselves shallow-normal (no stored value is a bound variable —
the table's contract that a bound slot holds a finished term), applying
`normalize_shallow` twice equals applying it once, a `None` result
read as returning the input unchanged. -/
theorem c9_normalize_shallow_idempotent (t : ChalkRust.OldTable)
    (x : ChalkRust.OldTy)
    (h : ∀ u ∈ t.values, ChalkRust.normalizeShallow t u = none) :
    ChalkRust.normalizeShallowTotal t (ChalkRust.normalizeShallowTotal t x) =
      ChalkRust.normalizeShallowTotal t x := by
  cases hx : ChalkRust.normalizeShallow t x with
  | none =>
      simp [ChalkRust.normalizeShallowTotal, hx]
  | some u =>
      have hu : u ∈ t.values := ChalkRust.normalizeShallow_mem_values hx
      have hnu : ChalkRust.normalizeShallow t u = none := h u hu
      simp [ChalkRust.normalizeShallowTotal, hx, hnu]

/-- C9 witness: a concrete table satisfying the stored-value contract,
on which the amended idempotence holds at `Var(0)`. -/
theorem c9_witness :
    ChalkRust.normalizeShallowTotal ⟨[0], [.bound 0], [.apply 7 .nil]⟩
        (ChalkRust.normalizeShallowTotal ⟨[0], [.bound 0], [.apply 7 .nil]⟩ (.var 0)) =
      ChalkRust.normalizeShallowTotal ⟨[0], [.bound 0], [.apply 7 .nil]⟩ (.var 0) :=
  c9_normalize_shallow_idempotent ⟨[0], [.bound 0], [.apply 7 .nil]⟩ (.var 0)
    (by decide)

/-- C2.  `InferenceTable::relate` is atomic: an `Err` outcome returns
the table exactly as it was before the call (so the probe result of
every variable allocated before the call and the allocation count are
unchanged), and an `Ok` outcome commits the inner Unifier run's table
and surfaces exactly the goals it collected from an empty goal list. -/
theorem c2_relate_atomicity (db : UDb) (env fuel : Nat) (variance : Variance)
    (a b : GenericArg) (t : Table) :
    (∀ e t', relate db env fuel variance a b t = (.error e, t') → t' = t) ∧
    (∀ r t', relate db env fuel variance a b t = (.ok r, t') →
       ∃ s', zipGenericArg db env fuel variance a b ⟨t, []⟩ = (.ok (), s') ∧
         t' = s'.table ∧ r.goals = s'.goals) := by
  constructor
  · intro e t' h
    unfold relate at h
    cases hz : zipGenericArg db env fuel variance a b ⟨t, []⟩ with
    | mk r s' =>
        rw [hz] at h
        cases r with
        | ok u => simp at h
        | error e' => simp at h; exact h.2.symm
  · intro r t' h
    unfold relate at h
    cases hz : zipGenericArg db env fuel variance a b ⟨t, []⟩ with
    | mk rr s' =>
        rw [hz] at h
        cases rr with
        | ok u =>
            cases u
            simp at h
            refine ⟨s', ?_, h.2.symm, ?_⟩
            · rfl
            · rw [← h.1]
        | error e' => simp at h

/-- C2 witness: a concrete failing relation (an occurs-check failure)
returns the original table unchanged. -/
theorem c2_witness :
    ((⟨[0], [.unbound 0], 0⟩ : Table) = ⟨[0], [.unbound 0], 0⟩) :=
  (c2_relate_atomicity ⟨fun _ => []⟩ 0 10 .invariant
      (.ty (.inferenceVar 0 .general))
      (.ty (.apply (.adt 0) (.cons (.ty (.inferenceVar 0 .general)) .nil)))
      ⟨[0], [.unbound 0], 0⟩).1 .noSolution ⟨[0], [.unbound 0], 0⟩ (by decide)

/-- C8.  When the argument list's length equals the substitution
length of every impl of the trait, `impls_for_trait` returns normally,
and an id is in the result exactly when the store holds it with a
trait-ref head equal to `traitId` and a substitution the parameters
could match under the shallow same-constructor filter.  The function
performs no unification: it never touches an inference table. -/
theorem c8_impls_for_trait (implData : List (Nat × ImplDatum)) (traitId : Nat)
    (parameters : Args)
    (harity : ∀ p ∈ implData, p.2.traitRef.traitId = traitId →
       p.2.traitRef.substitution.len = parameters.len) :
    ∃ l, implsForTrait implData traitId parameters = some l ∧
      ∀ i, i ∈ l ↔ ∃ p ∈ implData, p.1 = i ∧ p.2.traitRef.traitId = traitId ∧
        couldMatchArgs parameters p.2.traitRef.substitution = true := by
  induction implData with
  | nil => exact ⟨[], rfl, by simp⟩
  | cons p rest ih =>
      obtain ⟨pid, pd⟩ := p
      obtain ⟨l, hl, hiff⟩ := ih (fun q hq => harity q (List.mem_cons_of_mem _ hq))
      by_cases hid : pd.traitRef.traitId = traitId
      · have hlen : pd.traitRef.substitution.len = parameters.len :=
          harity ⟨pid, pd⟩ (List.mem_cons_self _ _) hid
        by_cases hcm : couldMatchArgs parameters pd.traitRef.substitution = true
        · refine ⟨pid :: l, ?_, ?_⟩
          · simp [implsForTrait, hid, hlen, hl, hcm]
          · intro i
            simp only [List.mem_cons, hiff]
            constructor
            · rintro (h' | ⟨q, hq, rfl, hqt, hqc⟩)
              · exact ⟨⟨pid, pd⟩, Or.inl rfl, h'.symm, hid, hcm⟩
              · exact ⟨q, Or.inr hq, rfl, hqt, hqc⟩
            · rintro ⟨q, h' | hq', rfl, hqt, hqc⟩
              · rw [h']
                exact Or.inl rfl
              · exact Or.inr ⟨q, hq', rfl, hqt, hqc⟩
        · refine ⟨l, ?_, ?_⟩
          · simp [implsForTrait, hid, hlen, hl, hcm]
          · intro i
            rw [hiff i]
            constructor
            · rintro ⟨q, hq, rfl, hqt, hqc⟩
              exact ⟨q, List.mem_cons_of_mem _ hq, rfl, hqt, hqc⟩
            · rintro ⟨q, hq, rfl, hqt, hqc⟩
              rcases List.mem_cons.mp hq with h' | hq'
              · rw [h'] at hqc
                exact absurd hqc hcm
              · exact ⟨q, hq', rfl, hqt, hqc⟩
      · refine ⟨l, ?_, ?_⟩
        · simp [implsForTrait, hid, hl]
        · intro i
          rw [hiff i]
          constructor
          · rintro ⟨q, hq, rfl, hqt, hqc⟩
            exact ⟨q, List.mem_cons_of_mem _ hq, rfl, hqt, hqc⟩
          · rintro ⟨q, hq, rfl, hqt, hqc⟩
            rcases List.mem_cons.mp hq with h' | hq'
            · rw [h'] at hqt
              exact absurd hqt hid
            · exact ⟨q, hq', rfl, hqt, hqc⟩

/-- C8 witness: a two-impl store where only the matching-head,
matching-constructor impl is returned. -/
theorem c8_witness :
    ∃ l, implsForTrait
        [(10, ⟨0, ⟨1, .cons (.ty (.apply (.adt 3) .nil)) .nil⟩⟩),
         (11, ⟨0, ⟨2, .cons (.ty (.apply (.adt 4) .nil)) .nil⟩⟩)]
        1 (.cons (.ty (.apply (.adt 3) .nil)) .nil) = some l ∧
      ∀ i, i ∈ l ↔ ∃ p ∈
        [((10 : Nat), (⟨0, ⟨1, .cons (.ty (.apply (.adt 3) .nil)) .nil⟩⟩ : ImplDatum)),
         (11, ⟨0, ⟨2, .cons (.ty (.apply (.adt 4) .nil)) .nil⟩⟩)],
        p.1 = i ∧ p.2.traitRef.traitId = 1 ∧
        couldMatchArgs (.cons (.ty (.apply (.adt 3) .nil)) .nil)
          p.2.traitRef.substitution = true :=
  c8_impls_for_trait _ 1 _ (by decide)

/-- C4.  `relate_binders` returns Ok exactly when both higher-ranked
passes succeed in sequence: first `a` instantiated universally (fresh
placeholders in a new universe) is related against `b` instantiated
existentially (fresh inference variables), then — from the state the
first pass produced — `a` instantiated existentially is related
against `b` instantiated universally; failure of either pass fails the
whole relation. -/
theorem c4_relate_binders_double_check (db : UDb) (env fuel : Nat) (variance : Variance)
    (ka kb : VKinds) (ba bb : Args) (s : UState) :
    (∃ s', relateBindersArgs db env (fuel + 1) variance ka ba kb bb s = (.ok (), s')) ↔
      ∃ s1, (instantiateUniversally ka >>= fun arA =>
               instantiateExistentially kb >>= fun arB =>
               zipArgs db env fuel variance (substArgs arA 0 ba) (substArgs arB 0 bb)) s
              = (.ok (), s1) ∧
        ∃ s2, (instantiateUniversally kb >>= fun arB2 =>
                 instantiateExistentially ka >>= fun arA2 =>
                 zipArgs db env fuel variance (substArgs arA2 0 ba) (substArgs arB2 0 bb)) s1
                = (.ok (), s2) := by
  constructor
  · rintro ⟨s', h⟩
    replace h : (instantiateUniversally ka >>= fun arA =>
        instantiateExistentially kb >>= fun arB =>
        zipArgs db env fuel variance (substArgs arA 0 ba) (substArgs arB 0 bb) >>= fun _ =>
        instantiateUniversally kb >>= fun arB2 =>
        instantiateExistentially ka >>= fun arA2 =>
        zipArgs db env fuel variance (substArgs arA2 0 ba) (substArgs arB2 0 bb)) s
          = (.ok (), s') := h
    rw [UM.bind_ok_iff] at h
    obtain ⟨arA, sA, hA, h⟩ := h
    rw [UM.bind_ok_iff] at h
    obtain ⟨arB, sB, hB, h⟩ := h
    rw [UM.bind_ok_iff] at h
    obtain ⟨u, s1, hz1, h⟩ := h
    refine ⟨s1, ?_, s', h⟩
    rw [UM.bind_ok_iff]
    refine ⟨arA, sA, hA, ?_⟩
    rw [UM.bind_ok_iff]
    exact ⟨arB, sB, hB, hz1⟩
  · rintro ⟨s1, h1, s2, h2⟩
    rw [UM.bind_ok_iff] at h1
    obtain ⟨arA, sA, hA, h1⟩ := h1
    rw [UM.bind_ok_iff] at h1
    obtain ⟨arB, sB, hB, h1⟩ := h1
    refine ⟨s2, ?_⟩
    show (instantiateUniversally ka >>= fun arA =>
        instantiateExistentially kb >>= fun arB =>
        zipArgs db env fuel variance (substArgs arA 0 ba) (substArgs arB 0 bb) >>= fun _ =>
        instantiateUniversally kb >>= fun arB2 =>
        instantiateExistentially ka >>= fun arA2 =>
        zipArgs db env fuel variance (substArgs arA2 0 ba) (substArgs arB2 0 bb)) s
          = (.ok (), s2)
    rw [UM.bind_ok_iff]
    refine ⟨arA, sA, hA, ?_⟩
    rw [UM.bind_ok_iff]
    refine ⟨arB, sB, hB, ?_⟩
    rw [UM.bind_ok_iff]
    exact ⟨(), s1, h1, h2⟩

/-- C7.  `relate_lifetime_lifetime` after shallow normalization:
two inference variables are unioned (no goals); an inference variable
against a placeholder is bound to it exactly when the variable's
universe can see the placeholder's, and otherwise the table is left
alone and `LifetimeOutlives` goals are pushed — both directions under
Invariant, one direction under Covariant or Contravariant, in the
original orientation of the pair; two distinct placeholders push the
outlives goals; two identical placeholders succeed with no table
mutation and no goals. -/
theorem c7_relate_lifetime_lifetime (env : Nat) (variance : Variance) (s : UState) :
    (∀ a0 b0 va vb,
       (normalizeLifetimeShallow s.table a0).getD a0 = .inferenceVar va →
       (normalizeLifetimeShallow s.table b0).getD b0 = .inferenceVar vb →
       relateLifetimeLifetime env variance a0 b0 s =
         (.ok (), ⟨s.table.unifyVarVar va vb, s.goals⟩)) ∧
    (∀ a0 b0 va u i vu,
       (normalizeLifetimeShallow s.table a0).getD a0 = .inferenceVar va →
       (normalizeLifetimeShallow s.table b0).getD b0 = .placeholder u i →
       s.table.probe va = .unbound vu →
       (canSee vu u = true →
          relateLifetimeLifetime env variance a0 b0 s =
            (.ok (), ⟨s.table.unifyVarValue va (.boundTo (.lifetime (.placeholder u i))),
                      s.goals⟩)) ∧
       (canSee vu u = false →
          relateLifetimeLifetime env variance a0 b0 s =
            (.ok (), ⟨s.table,
              s.goals ++ outlivesGoals env variance (.inferenceVar va) (.placeholder u i)⟩))) ∧
    (∀ a0 b0 vb u i vu,
       (normalizeLifetimeShallow s.table a0).getD a0 = .placeholder u i →
       (normalizeLifetimeShallow s.table b0).getD b0 = .inferenceVar vb →
       s.table.probe vb = .unbound vu →
       (canSee vu u = true →
          relateLifetimeLifetime env variance a0 b0 s =
            (.ok (), ⟨s.table.unifyVarValue vb (.boundTo (.lifetime (.placeholder u i))),
                      s.goals⟩)) ∧
       (canSee vu u = false →
          relateLifetimeLifetime env variance a0 b0 s =
            (.ok (), ⟨s.table,
              s.goals ++ outlivesGoals env variance (.placeholder u i) (.inferenceVar vb)⟩))) ∧
    (∀ a0 b0 u1 i1 u2 i2,
       (normalizeLifetimeShallow s.table a0).getD a0 = .placeholder u1 i1 →
       (normalizeLifetimeShallow s.table b0).getD b0 = .placeholder u2 i2 →
       (u1, i1) ≠ (u2, i2) →
       relateLifetimeLifetime env variance a0 b0 s =
         (.ok (), ⟨s.table,
           s.goals ++ outlivesGoals env variance (.placeholder u1 i1) (.placeholder u2 i2)⟩)) ∧
    (∀ a0 b0 u i,
       (normalizeLifetimeShallow s.table a0).getD a0 = .placeholder u i →
       (normalizeLifetimeShallow s.table b0).getD b0 = .placeholder u i →
       relateLifetimeLifetime env variance a0 b0 s = (.ok (), s)) := by
  refine ⟨?_, ?_, ?_, ?_, ?_⟩
  · intro a0 b0 va vb hna hnb
    show (UM.get >>= fun st => _) s = _
    rw [UM.run_bind]
    simp only [UM.get, hna, hnb]
    rfl
  · intro a0 b0 va u i vu hna hnb hpv
    constructor
    · intro hcs
      show (UM.get >>= fun st => _) s = _
      rw [UM.run_bind]
      simp only [UM.get, hna, hnb]
      show unifyLifetimeVar env variance (.inferenceVar va) (.placeholder u i) va
        (.placeholder u i) u s = _
      simp only [unifyLifetimeVar, UM.run_bind, UM.get, Table.universeOfUnboundVar, hpv, hcs]
      rfl
    · intro hcs
      show (UM.get >>= fun st => _) s = _
      rw [UM.run_bind]
      simp only [UM.get, hna, hnb]
      show unifyLifetimeVar env variance (.inferenceVar va) (.placeholder u i) va
        (.placeholder u i) u s = _
      simp only [unifyLifetimeVar, UM.run_bind, UM.get, Table.universeOfUnboundVar, hpv, hcs]
      exact run_pushLifetimeEqGoals env variance _ _ s
  · intro a0 b0 vb u i vu hna hnb hpv
    constructor
    · intro hcs
      show (UM.get >>= fun st => _) s = _
      rw [UM.run_bind]
      simp only [UM.get, hna, hnb]
      show unifyLifetimeVar env variance (.placeholder u i) (.inferenceVar vb) vb
        (.placeholder u i) u s = _
      simp only [unifyLifetimeVar, UM.run_bind, UM.get, Table.universeOfUnboundVar, hpv, hcs]
      rfl
    · intro hcs
      show (UM.get >>= fun st => _) s = _
      rw [UM.run_bind]
      simp only [UM.get, hna, hnb]
      show unifyLifetimeVar env variance (.placeholder u i) (.inferenceVar vb) vb
        (.placeholder u i) u s = _
      simp only [unifyLifetimeVar, UM.run_bind, UM.get, Table.universeOfUnboundVar, hpv, hcs]
      exact run_pushLifetimeEqGoals env variance _ _ s
  · intro a0 b0 u1 i1 u2 i2 hna hnb hne
    show (UM.get >>= fun st => _) s = _
    rw [UM.run_bind]
    simp only [UM.get, hna, hnb]
    rw [if_pos hne]
    exact run_pushLifetimeEqGoals env variance _ _ s
  · intro a0 b0 u i hna hnb
    show (UM.get >>= fun st => _) s = _
    rw [UM.run_bind]
    simp only [UM.get, hna, hnb]
    rw [if_neg (by simp)]
    rfl

/-- C7 witness: on a one-variable table in universe 0, the variable
unifies with a same-universe placeholder, and cannot-see placeholders
defer to outlives goals. -/
theorem c7_witness :
    relateLifetimeLifetime 3 .invariant (.inferenceVar 0) (.placeholder 0 5)
        ⟨⟨[0], [.unbound 0], 0⟩, []⟩ =
      (.ok (), ⟨(⟨[0], [.unbound 0], 0⟩ : Table).unifyVarValue 0
        (.boundTo (.lifetime (.placeholder 0 5))), []⟩) :=
  (((c7_relate_lifetime_lifetime 3 .invariant ⟨⟨[0], [.unbound 0], 0⟩, []⟩).2.1
      (.inferenceVar 0) (.placeholder 0 5) 0 0 5 0
      (by decide) (by decide) (by decide)).1 (by decide))

/-- C5.  The claim as stated is false: `relate_const_const` relates the
consts' declared types under the *given* variance (unify.rs line 761
passes `variance`, not `Variance::Invariant`).  Under Covariant, two
equal concrete consts whose declared types are the distinct inference
variables 0 and 1 produce a `SubtypeGoal` and leave the variables
un-unioned, while the invariant type relation the claim describes
unions them and pushes no goal. -/
theorem c5_counterexample :
    relateConstConst ⟨fun _ => []⟩ 0 10 .covariant
        (.mk (.inferenceVar 0 .general) (.concrete 5))
        (.mk (.inferenceVar 1 .general) (.concrete 5))
        ⟨⟨[0, 1], [.unbound 0, .unbound 0], 0⟩, []⟩ ≠
      relateConstConstSpecWords ⟨fun _ => []⟩ 0 10 .covariant
        (.mk (.inferenceVar 0 .general) (.concrete 5))
        (.mk (.inferenceVar 1 .general) (.concrete 5))
        ⟨⟨[0, 1], [.unbound 0, .unbound 0], 0⟩, []⟩ := by
  decide

/-- C5 (amended).  For every pair of consts and every variance,
`relate_const_const` first relates the two (shallow-normalized) consts'
declared types under the *given* variance, and then dispatches on the
values: a type-relation failure fails the whole call; two inference
variables are unioned; an inference variable against a concrete or
placeholder value is bound to the other (whole, normalized) const; two
concrete values succeed exactly when the interner's `const_eq` holds;
two placeholders are zipped by index; a concrete value against a
placeholder in either order is `NoSolution`. -/
theorem c5_relate_const_const (db : UDb) (env fuel : Nat) (variance : Variance)
    (s s1 : UState) :
    (∀ a0 b0 ta va tb vb e,
       (normalizeConstShallow s.table a0).getD a0 = .mk ta va →
       (normalizeConstShallow s.table b0).getD b0 = .mk tb vb →
       relateTyTy db env fuel variance ta tb s = (.error e, s1) →
       relateConstConst db env (fuel + 1) variance a0 b0 s = (.error e, s1)) ∧
    (∀ a0 b0 ta tb v1 v2,
       (normalizeConstShallow s.table a0).getD a0 = .mk ta (.inferenceVar v1) →
       (normalizeConstShallow s.table b0).getD b0 = .mk tb (.inferenceVar v2) →
       relateTyTy db env fuel variance ta tb s = (.ok (), s1) →
       relateConstConst db env (fuel + 1) variance a0 b0 s =
         (.ok (), ⟨s1.table.unifyVarVar v1 v2, s1.goals⟩)) ∧
    (∀ a0 b0 ta tb v1 vb,
       (normalizeConstShallow s.table a0).getD a0 = .mk ta (.inferenceVar v1) →
       (normalizeConstShallow s.table b0).getD b0 = .mk tb vb →
       ((∃ e, vb = .concrete e) ∨ (∃ u i, vb = .placeholder u i)) →
       relateTyTy db env fuel variance ta tb s = (.ok (), s1) →
       relateConstConst db env (fuel + 1) variance a0 b0 s =
         (.ok (), ⟨s1.table.unifyVarValue v1 (.boundTo (.konst (.mk tb vb))), s1.goals⟩)) ∧
    (∀ a0 b0 ta tb va v2,
       (normalizeConstShallow s.table a0).getD a0 = .mk ta va →
       (normalizeConstShallow s.table b0).getD b0 = .mk tb (.inferenceVar v2) →
       ((∃ e, va = .concrete e) ∨ (∃ u i, va = .placeholder u i)) →
       relateTyTy db env fuel variance ta tb s = (.ok (), s1) →
       relateConstConst db env (fuel + 1) variance a0 b0 s =
         (.ok (), ⟨s1.table.unifyVarValue v2 (.boundTo (.konst (.mk ta va))), s1.goals⟩)) ∧
    (∀ a0 b0 ta tb u1 i1 u2 i2,
       (normalizeConstShallow s.table a0).getD a0 = .mk ta (.placeholder u1 i1) →
       (normalizeConstShallow s.table b0).getD b0 = .mk tb (.placeholder u2 i2) →
       relateTyTy db env fuel variance ta tb s = (.ok (), s1) →
       relateConstConst db env (fuel + 1) variance a0 b0 s =
         (if (u1, i1) = (u2, i2) then (.ok (), s1) else (.error .noSolution, s1))) ∧
    (∀ a0 b0 ta tb e1 e2,
       (normalizeConstShallow s.table a0).getD a0 = .mk ta (.concrete e1) →
       (normalizeConstShallow s.table b0).getD b0 = .mk tb (.concrete e2) →
       relateTyTy db env fuel variance ta tb s = (.ok (), s1) →
       relateConstConst db env (fuel + 1) variance a0 b0 s =
         (if constEq ta e1 e2 then (.ok (), s1) else (.error .noSolution, s1))) ∧
    (∀ a0 b0 ta tb e1 u2 i2,
       (normalizeConstShallow s.table a0).getD a0 = .mk ta (.concrete e1) →
       (normalizeConstShallow s.table b0).getD b0 = .mk tb (.placeholder u2 i2) →
       relateTyTy db env fuel variance ta tb s = (.ok (), s1) →
       relateConstConst db env (fuel + 1) variance a0 b0 s = (.error .noSolution, s1)) ∧
    (∀ a0 b0 ta tb u1 i1 e2,
       (normalizeConstShallow s.table a0).getD a0 = .mk ta (.placeholder u1 i1) →
       (normalizeConstShallow s.table b0).getD b0 = .mk tb (.concrete e2) →
       relateTyTy db env fuel variance ta tb s = (.ok (), s1) →
       relateConstConst db env (fuel + 1) variance a0 b0 s = (.error .noSolution, s1)) := by
  refine ⟨?_, ?_, ?_, ?_, ?_, ?_, ?_, ?_⟩
  · intro a0 b0 ta va tb vb e hna hnb hty
    show (UM.get >>= fun st => _) s = _
    rw [UM.run_bind]
    simp only [UM.get, UM.run_bind, hna, hnb]
    rw [show engine db env fuel (Req.tyTy variance ta tb) s = (.error e, s1) from hty]
  · intro a0 b0 ta tb v1 v2 hna hnb hty
    show (UM.get >>= fun st => _) s = _
    rw [UM.run_bind]
    simp only [UM.get, UM.run_bind, hna, hnb]
    rw [show engine db env fuel (Req.tyTy variance ta tb) s = (.ok (), s1) from hty]
    rfl
  · rintro a0 b0 ta tb v1 vb hna hnb (⟨e, rfl⟩ | ⟨u, i, rfl⟩) hty <;>
      · show (UM.get >>= fun st => _) s = _
        rw [UM.run_bind]
        simp only [UM.get, UM.run_bind, hna, hnb]
        rw [show engine db env fuel (Req.tyTy variance ta tb) s = (.ok (), s1) from hty]
        rfl
  · rintro a0 b0 ta tb va v2 hna hnb (⟨e, rfl⟩ | ⟨u, i, rfl⟩) hty <;>
      · show (UM.get >>= fun st => _) s = _
        rw [UM.run_bind]
        simp only [UM.get, UM.run_bind, hna, hnb]
        rw [show engine db env fuel (Req.tyTy variance ta tb) s = (.ok (), s1) from hty]
        rfl
  · intro a0 b0 ta tb u1 i1 u2 i2 hna hnb hty
    show (UM.get >>= fun st => _) s = _
    rw [UM.run_bind]
    simp only [UM.get, UM.run_bind, hna, hnb]
    rw [show engine db env fuel (Req.tyTy variance ta tb) s = (.ok (), s1) from hty]
    by_cases hp : (u1, i1) = (u2, i2)
    · simp only [if_pos hp]
      rfl
    · simp only [if_neg hp]
      rfl
  · intro a0 b0 ta tb e1 e2 hna hnb hty
    show (UM.get >>= fun st => _) s = _
    rw [UM.run_bind]
    simp only [UM.get, UM.run_bind, hna, hnb]
    rw [show engine db env fuel (Req.tyTy variance ta tb) s = (.ok (), s1) from hty]
    by_cases hc : constEq ta e1 e2 = true
    · simp only [if_pos hc]
      rfl
    · simp only [if_neg hc]
      rfl
  · intro a0 b0 ta tb e1 u2 i2 hna hnb hty
    show (UM.get >>= fun st => _) s = _
    rw [UM.run_bind]
    simp only [UM.get, UM.run_bind, hna, hnb]
    rw [show engine db env fuel (Req.tyTy variance ta tb) s = (.ok (), s1) from hty]
    rfl
  · intro a0 b0 ta tb u1 i1 e2 hna hnb hty
    show (UM.get >>= fun st => _) s = _
    rw [UM.run_bind]
    simp only [UM.get, UM.run_bind, hna, hnb]
    rw [show engine db env fuel (Req.tyTy variance ta tb) s = (.ok (), s1) from hty]
    rfl

/-- C5 witness: two equal concrete consts with inference-variable
declared types, under Covariant: the type relation pushes one subtype
goal, then the values compare equal. -/
theorem c5_witness :
    relateConstConst ⟨fun _ => []⟩ 0 10 .covariant
        (.mk (.inferenceVar 0 .general) (.concrete 5))
        (.mk (.inferenceVar 1 .general) (.concrete 5))
        ⟨⟨[0, 1], [.unbound 0, .unbound 0], 0⟩, []⟩ =
      (if constEq (.inferenceVar 0 .general) 5 5 then
         (.ok (), ⟨⟨[0, 1], [.unbound 0, .unbound 0], 0⟩,
           [.subtype 0 (.inferenceVar 0 .general) (.inferenceVar 1 .general)]⟩)
       else (.error .noSolution,
         ⟨⟨[0, 1], [.unbound 0, .unbound 0], 0⟩,
           [.subtype 0 (.inferenceVar 0 .general) (.inferenceVar 1 .general)]⟩)) :=
  (c5_relate_const_const ⟨fun _ => []⟩ 0 9 .covariant
      ⟨⟨[0, 1], [.unbound 0, .unbound 0], 0⟩, []⟩
      ⟨⟨[0, 1], [.unbound 0, .unbound 0], 0⟩,
        [.subtype 0 (.inferenceVar 0 .general) (.inferenceVar 1 .general)]⟩).2.2.2.2.2.1
    (.mk (.inferenceVar 0 .general) (.concrete 5))
    (.mk (.inferenceVar 1 .general) (.concrete 5))
    (.inferenceVar 0 .general) (.inferenceVar 1 .general) 5 5
    (by decide) (by decide) (by decide)

/-- C6.  The claim as stated is false on two counts.  (1) "the relation
succeeds": under Covariant, relating the alias `(proj 0)` with a
placeholder of universe 1 on a table whose max universe is 0 fails with
`NoSolution` (the fresh `?X` is bound through `relate_var_ty`, whose
occurs check rejects the placeholder).  (2) "relates `?X` with the
other type under the given variance": with the alias on the right,
under Covariant the code inverts the variance (unify.rs line 197), so
relating the variable 0 against an alias pushes
`SubtypeGoal{a: var 0, b: ?X}` — the orientation of `relate(Contravariant,
?X, var 0)` — not the `SubtypeGoal{a: ?X, b: var 0}` the claim's
given-variance reading predicts. -/
theorem c6_counterexample :
    (relateTyTy ⟨fun _ => []⟩ 0 10 .covariant (.alias (.projection 0 .nil))
        (.placeholder 1 0) ⟨⟨[], [], 0⟩, []⟩).1 = .error .noSolution ∧
    relateTyTy ⟨fun _ => []⟩ 0 10 .covariant (.inferenceVar 0 .general)
        (.alias (.projection 0 .nil)) ⟨⟨[0], [.unbound 0], 0⟩, []⟩ =
      (.ok (), ⟨⟨[0, 1], [.unbound 0, .unbound 0], 0⟩,
        [.aliasEq 0 (.projection 0 .nil) (.inferenceVar 1 .general),
         .subtype 0 (.inferenceVar 0 .general) (.inferenceVar 1 .general)]⟩) := by
  constructor
  · decide
  · decide

/-- C6 (amended).  Whenever one side of `relate_ty_ty` is an Alias
after shallow normalization (the other side not a bound variable), the
relation defers to `relate_alias_ty` — under the given variance for a
left alias, under the inverted variance for a right alias against a
non-alias.  `relate_alias_ty` under Invariant always succeeds, pushes
exactly one `AliasEq(alias = other)` goal and leaves the table
untouched; under Covariant or Contravariant it allocates exactly one
fresh inference variable `?X` in the root universe — existing
variables' probe results are unchanged by the allocation and `?X` is
unbound — pushes `AliasEq(alias = ?X)`, and its result is that of
relating `?X` with the other type under that variance, which may
fail. -/
theorem c6_alias_deferral (db : UDb) (env fuel : Nat) (s : UState) :
    (∀ (variance : Variance) a0 b0 al nb,
       (normalizeTyShallow s.table a0).getD a0 = .alias al →
       (normalizeTyShallow s.table b0).getD b0 = nb →
       (nb.headDeferrable = true ∨ ∃ al2, nb = .alias al2) →
       relateTyTy db env (fuel + 1) variance a0 b0 s =
         relateAliasTy db env fuel variance al nb s) ∧
    (∀ (variance : Variance) a0 b0 na al,
       (normalizeTyShallow s.table a0).getD a0 = na →
       (normalizeTyShallow s.table b0).getD b0 = .alias al →
       na.headDeferrable = true →
       relateTyTy db env (fuel + 1) variance a0 b0 s =
         relateAliasTy db env fuel variance.invert al na s) ∧
    (∀ al ty,
       relateAliasTy db env (fuel + 1) .invariant al ty s =
         (.ok (), ⟨s.table, s.goals ++ [.aliasEq env al ty]⟩)) ∧
    (∀ (variance : Variance) al ty,
       variance = .covariant ∨ variance = .contravariant →
       relateAliasTy db env (fuel + 1) variance al ty s =
         relateTyTy db env fuel variance (.inferenceVar s.table.next .general) ty
           ⟨(s.table.newVariable 0).2,
            s.goals ++ [.aliasEq env al (.inferenceVar s.table.next .general)]⟩) ∧
    (∀ u w,
       w < s.table.repr.length →
       s.table.reprOf w < s.table.vals.length →
       ((s.table.newVariable u).2).probe w = s.table.probe w) ∧
    (∀ u,
       s.table.vals.length = s.table.repr.length →
       ((s.table.newVariable u).2).probe s.table.next = .unbound u) := by
  refine ⟨?_, ?_, ?_, ?_, ?_, ?_⟩
  · rintro variance a0 b0 al nb hna hnb hshape
    cases nb with
    | apply n s2 =>
        show (UM.get >>= fun st => _) s = _
        rw [UM.run_bind]
        simp only [UM.get, hna, hnb]
        rfl
    | placeholder u i =>
        show (UM.get >>= fun st => _) s = _
        rw [UM.run_bind]
        simp only [UM.get, hna, hnb]
        rfl
    | inferenceVar v k =>
        show (UM.get >>= fun st => _) s = _
        rw [UM.run_bind]
        simp only [UM.get, hna, hnb]
        rfl
    | dyn ks bs lt =>
        show (UM.get >>= fun st => _) s = _
        rw [UM.run_bind]
        simp only [UM.get, hna, hnb]
        rfl
    | function nb2 abi sf vd s2 =>
        show (UM.get >>= fun st => _) s = _
        rw [UM.run_bind]
        simp only [UM.get, hna, hnb]
        rfl
    | «alias» al2 =>
        show (UM.get >>= fun st => _) s = _
        rw [UM.run_bind]
        simp only [UM.get, hna, hnb]
        rfl
    | boundVar d i =>
        rcases hshape with h | ⟨al2, h2⟩
        · exact absurd h (by simp [Ty.headDeferrable])
        · cases h2
  · rintro variance a0 b0 na al hna hnb hshape
    cases na with
    | apply n s2 =>
        show (UM.get >>= fun st => _) s = _
        rw [UM.run_bind]
        simp only [UM.get, hna, hnb]
        rfl
    | placeholder u i =>
        show (UM.get >>= fun st => _) s = _
        rw [UM.run_bind]
        simp only [UM.get, hna, hnb]
        rfl
    | inferenceVar v k =>
        show (UM.get >>= fun st => _) s = _
        rw [UM.run_bind]
        simp only [UM.get, hna, hnb]
        rfl
    | dyn ks bs lt =>
        show (UM.get >>= fun st => _) s = _
        rw [UM.run_bind]
        simp only [UM.get, hna, hnb]
        rfl
    | function nb2 abi sf vd s2 =>
        show (UM.get >>= fun st => _) s = _
        rw [UM.run_bind]
        simp only [UM.get, hna, hnb]
        rfl
    | «alias» al2 => exact absurd hshape (by simp [Ty.headDeferrable])
    | boundVar d i => exact absurd hshape (by simp [Ty.headDeferrable])
  · intro al ty
    rfl
  · rintro variance al ty (rfl | rfl) <;> rfl
  · intro u w hw hr
    show (s.table.vals ++ [InfVal.unbound u]).getD
      ((s.table.repr ++ [s.table.next]).getD w w) (InfVal.unbound 0) = _
    rw [List.getD_append _ _ _ _ hw]
    rw [List.getD_append _ _ _ _
      (show s.table.repr.getD w w < s.table.vals.length from hr)]
    rfl
  · intro u hlen
    show (s.table.vals ++ [InfVal.unbound u]).getD
      ((s.table.repr ++ [s.table.next]).getD s.table.next s.table.next) (InfVal.unbound 0)
        = InfVal.unbound u
    have h1 : ((s.table.repr ++ [s.table.next]).getD s.table.next s.table.next) = s.table.next := by
      simp [Table.next, List.getD]
    rw [h1]
    have h2 : s.table.next = s.table.vals.length := by
      rw [hlen]
      rfl
    rw [h2]
    simp [List.getD]

/-- C6 witness: on a one-variable table, relating that variable (left)
against an alias (right) under Covariant defers with the inverted
variance from the state holding the fresh variable and the AliasEq
goal. -/
theorem c6_witness :
    relateTyTy ⟨fun _ => []⟩ 0 10 .covariant (.inferenceVar 0 .general)
        (.alias (.projection 0 .nil)) ⟨⟨[0], [.unbound 0], 0⟩, []⟩ =
      relateAliasTy ⟨fun _ => []⟩ 0 9 .contravariant (.projection 0 .nil)
        (.inferenceVar 0 .general) ⟨⟨[0], [.unbound 0], 0⟩, []⟩ :=
  (c6_alias_deferral ⟨fun _ => []⟩ 0 9 ⟨⟨[0], [.unbound 0], 0⟩, []⟩).2.1
    .covariant (.inferenceVar 0 .general) (.alias (.projection 0 .nil))
    (.inferenceVar 0 .general) (.projection 0 .nil)
    (by decide) (by decide) (by decide)

/-- C10.  `impls_for_trait` panics (modelled as `none`) exactly when
some impl whose trait-ref head equals the trait has a substitution
whose length differs from the argument list's; it returns normally
exactly under the precondition that the arguments match the arity of
every head-matching impl. -/
theorem c10_impls_for_trait_arity (implData : List (Nat × ImplDatum)) (traitId : Nat)
    (parameters : Args) :
    implsForTrait implData traitId parameters = none ↔
      ∃ p ∈ implData, p.2.traitRef.traitId = traitId ∧
        p.2.traitRef.substitution.len ≠ parameters.len := by
  induction implData with
  | nil => simp [implsForTrait]
  | cons p rest ih =>
      obtain ⟨pid, pd⟩ := p
      by_cases hid : pd.traitRef.traitId = traitId
      · by_cases hlen : pd.traitRef.substitution.len = parameters.len
        · cases hr : implsForTrait rest traitId parameters with
          | some l =>
              simp only [implsForTrait, hid, if_pos rfl, hlen, hr]
              have hnr : ¬∃ p ∈ rest, p.2.traitRef.traitId = traitId ∧
                  p.2.traitRef.substitution.len ≠ parameters.len := by
                rw [← ih, hr]
                simp
              constructor
              · intro h
                simp at h
              · rintro ⟨q, hq, hqt, hql⟩
                rcases List.mem_cons.mp hq with h' | hq'
                · rw [h'] at hql
                  exact absurd hlen hql
                · exact absurd ⟨q, hq', hqt, hql⟩ hnr
          | none =>
              simp only [implsForTrait, hid, if_pos rfl, hlen, hr]
              obtain ⟨q, hq, hqt, hql⟩ := ih.mp hr
              exact iff_of_true rfl ⟨q, List.mem_cons_of_mem _ hq, hqt, hql⟩
        · simp only [implsForTrait, hid, if_pos rfl, hlen]
          exact iff_of_true (by simp)
            ⟨⟨pid, pd⟩, List.mem_cons_self _ _, hid, hlen⟩
      · have he : implsForTrait ((pid, pd) :: rest) traitId parameters =
            implsForTrait rest traitId parameters := by
          simp [implsForTrait, hid]
        rw [he, ih]
        constructor
        · rintro ⟨q, hq, hqt, hql⟩
          exact ⟨q, List.mem_cons_of_mem _ hq, hqt, hql⟩
        · rintro ⟨q, hq, hqt, hql⟩
          rcases List.mem_cons.mp hq with h' | hq'
          · rw [h'] at hqt
            exact absurd hqt hid
          · exact ⟨q, hq', hqt, hql⟩

end Chalk
